import Mathlib

/-!
Verification of the text-to-phone pipeline of the sbv2-onnx-server TTS
front-end.  The Rust sources are shallowly embedded: strings are lists of
`Char`, machine integers are `Nat`/`Int`, f32 request parameters are
modelled as `ℚ` (the claims under study concern branch logic and clamping,
not float rounding), and fallible functions return `Option`/`Except`.
External crates (the jieba segmenter, the pinyin crate, the ONNX runtime)
are treated as abstract parameters constrained only by their documented
structural guarantees; everything else is transcribed from the repository
sources, file by file.
-/

/-! ### `src/model/mod.rs` — blank interspersion (claim C4) -/

/-- `intersperse` from `src/model/mod.rs` (lines 360-368): for every value
push the blank then the value, and push one final blank. -/
def intersperse : List Int → Int → List Int
  | [], blank => [blank]
  | v :: rest, blank => blank :: v :: intersperse rest blank

/-- The `word2ph` update of the `add_blank` branch of `infer_chinese`
(`src/model/mod.rs` lines 191-197): double every entry, then add 1 to the
first entry. -/
def addBlankWord2ph (w : List Nat) : List Nat :=
  match w.map (· * 2) with
  | [] => []
  | x :: rest => (x + 1) :: rest

theorem intersperse_length (v : List Int) (b : Int) :
    (intersperse v b).length = 2 * v.length + 1 := by
  induction v with
  | nil => simp [intersperse]
  | cons x xs ih => simp [intersperse, ih]; omega

theorem addBlankWord2ph_sum (w : List Nat) (hne : w ≠ []) :
    (addBlankWord2ph w).sum = 2 * w.sum + 1 := by
  cases w with
  | nil => exact absurd rfl hne
  | cons x xs =>
    simp [addBlankWord2ph, List.sum_map_mul_right, Nat.mul_comm]
    ring

/-! ### `src/inference.rs` — synthesizer facade validation (claim C9) -/

/-- Unicode `White_Space` code points, the set used by Rust's
`str::trim` / `char::is_whitespace`. -/
def isRustWhitespace (c : Char) : Bool :=
  c.toNat ∈ [0x09, 0x0A, 0x0B, 0x0C, 0x0D, 0x20, 0x85, 0xA0, 0x1680,
    0x2000, 0x2001, 0x2002, 0x2003, 0x2004, 0x2005, 0x2006, 0x2007,
    0x2008, 0x2009, 0x200A, 0x2028, 0x2029, 0x202F, 0x205F, 0x3000]

/-- Rust `str::trim`: drop Unicode whitespace from both ends. -/
def rustTrim (l : List Char) : List Char :=
  ((l.dropWhile isRustWhitespace).reverse.dropWhile isRustWhitespace).reverse

/-- Caller-visible input of `ChineseSynthesizer::synthesize`
(`src/inference.rs`, `ChineseSynthesisInput`). -/
structure SynthesisInput where
  text : List Char
  speaker : Option String
  style : Option String
  styleWeight : Option ℚ
  sdpRatioVal : Option ℚ
  noiseVal : Option ℚ
  noiseWVal : Option ℚ
  lengthScale : Option ℚ
  assistText : Option String
  assistWeight : Option ℚ

/-- The request handed to `infer_chinese` (`src/model/mod.rs`,
`InferenceRequest`), with the defaults of `InferenceRequest::new` filled
in from `src/constants.rs`. -/
structure TtsRequest where
  speaker : Option String
  style : Option String
  styleWeight : ℚ
  sdpRatioVal : ℚ
  noiseVal : ℚ
  noiseWVal : ℚ
  lengthScale : ℚ
  assistText : Option String
  assistWeight : ℚ

/-- `InferenceRequest::new` defaults: `style_weight = 1.0`,
`sdp_ratio = DEFAULT_SDP_RATIO = 0.2`, `noise = 0.6`, `noise_w = 0.8`,
`length_scale = 1.0`, `assist_weight = 1.0`. -/
def defaultRequest : TtsRequest :=
  { speaker := none, style := none, styleWeight := 1, sdpRatioVal := 1/5,
    noiseVal := 3/5, noiseWVal := 4/5, lengthScale := 1,
    assistText := none, assistWeight := 1 }

/-- Rust `f32::clamp(lo, hi)` on the rational model. -/
def rustClamp (x lo hi : ℚ) : ℚ :=
  if x < lo then lo else if hi < x then hi else x

/-- `build_request` stage: the speaker check (`src/inference.rs` lines
106-111). -/
def checkSpeaker (speakers : List String) (sp : Option String)
    (r : TtsRequest) : Except String TtsRequest :=
  match sp with
  | some s =>
    if speakers.contains s then Except.ok { r with speaker := some s }
    else Except.error "speaker is not available"
  | none => Except.ok r

/-- `build_request` stage: the style check (lines 113-118). -/
def checkStyle (styles : List String) (st : Option String)
    (r : TtsRequest) : Except String TtsRequest :=
  match st with
  | some s =>
    if styles.contains s then Except.ok { r with style := some s }
    else Except.error "style is not available"
  | none => Except.ok r

/-- `build_request` stage: the `style_weight ∈ [0,1]` check (lines
120-125). -/
def checkStyleWeight (w : Option ℚ) (r : TtsRequest) :
    Except String TtsRequest :=
  match w with
  | some w =>
    if 0 ≤ w ∧ w ≤ 1 then Except.ok { r with styleWeight := w }
    else Except.error "style_weight must be within 0 and 1"
  | none => Except.ok r

/-- `build_request` stage: `sdp_ratio` is clamped, never rejected
(lines 127-129). -/
def applySdp (v : Option ℚ) (r : TtsRequest) : TtsRequest :=
  match v with
  | some v => { r with sdpRatioVal := rustClamp v 0 1 }
  | none => r

/-- `build_request` stage: `noise` is clamped to `≥ 0` via `f32::max`
(lines 131-133). -/
def applyNoise (v : Option ℚ) (r : TtsRequest) : TtsRequest :=
  match v with
  | some v => { r with noiseVal := max v 0 }
  | none => r

/-- `build_request` stage: `noise_w` is clamped to `≥ 0` (lines
135-137). -/
def applyNoiseW (v : Option ℚ) (r : TtsRequest) : TtsRequest :=
  match v with
  | some v => { r with noiseWVal := max v 0 }
  | none => r

/-- `build_request` stage: the `length_scale > 0` check (lines
139-144). -/
def checkLengthScale (v : Option ℚ) (r : TtsRequest) :
    Except String TtsRequest :=
  match v with
  | some v =>
    if v ≤ 0 then Except.error "length_scale must be positive"
    else Except.ok { r with lengthScale := v }
  | none => Except.ok r

/-- `build_request` stage: pass the assist text along (lines 146-148). -/
def applyAssistText (t : Option String) (r : TtsRequest) : TtsRequest :=
  match t with
  | some t => { r with assistText := some t }
  | none => r

/-- `build_request` stage: the `assist_weight ∈ [0,1]` check (lines
150-155). -/
def checkAssistWeight (w : Option ℚ) (r : TtsRequest) :
    Except String TtsRequest :=
  match w with
  | some w =>
    if 0 ≤ w ∧ w ≤ 1 then Except.ok { r with assistWeight := w }
    else Except.error "assist_weight must be within 0 and 1"
  | none => Except.ok r

/-- `ChineseSynthesizer::build_request` (`src/inference.rs` lines
100-158), with the speaker/style tables of the project abstracted to the
lists of configured names.  The stages run in the source order; any
failing check aborts the whole construction (the `?` operator). -/
def buildRequest (speakers styles : List String) (input : SynthesisInput) :
    Except String TtsRequest :=
  (checkSpeaker speakers input.speaker defaultRequest).bind fun r1 =>
  (checkStyle styles input.style r1).bind fun r2 =>
  (checkStyleWeight input.styleWeight r2).bind fun r3 =>
  (checkLengthScale input.lengthScale
    (applyNoiseW input.noiseWVal
      (applyNoise input.noiseVal (applySdp input.sdpRatioVal r3)))).bind fun r7 =>
  checkAssistWeight input.assistWeight (applyAssistText input.assistText r7)

/-- `ChineseSynthesizer::synthesize` entry validation
(`src/inference.rs` lines 73-78): reject text that is empty after trim,
then build the request. -/
def synthesizeCheck (speakers styles : List String)
    (input : SynthesisInput) : Except String TtsRequest :=
  if rustTrim input.text = [] then Except.error "text input must not be empty"
  else buildRequest speakers styles input

/-! ### `src/model/mod.rs` — style id bounds (claim C10) -/

/-- The `style2id` table built by `TtsProject::load`
(`src/model/mod.rs` lines 110-118): when the config table is empty, the
identity table over `0..num_styles`; otherwise every configured id is
clamped with `min (num_styles - 1)`. -/
def loadStyle2id (cfg : List (String × Nat)) (numStyles : Nat) :
    List (String × Nat) :=
  if cfg.isEmpty then (List.range numStyles).map (fun i => (toString i, i))
  else cfg.map (fun p => (p.1, min p.2 (numStyles - 1)))

/-- `default_style_id` computed by `TtsProject::load`
(`src/model/mod.rs` lines 126-130): look up `DEFAULT_STYLE = "Neutral"`,
default to 0, clamp with `min (num_styles - 1)`. -/
def defaultStyleId (s2i : List (String × Nat)) (numStyles : Nat) : Nat :=
  min ((s2i.lookup "Neutral").getD 0) (numStyles - 1)

/-- The style-id resolution and range check of
`TtsProject::make_style_vector` (`src/model/mod.rs` lines 342-352):
resolve the name (error when unknown), then bail when
`style_id >= style_vectors.nrows() = num_styles`. -/
def makeStyleVectorId (s2i : List (String × Nat)) (defaultId numStyles : Nat)
    (styleName : Option String) : Except String Nat :=
  match styleName with
  | some name =>
    match s2i.lookup name with
    | none => Except.error "style not found"
    | some id =>
      if numStyles ≤ id then Except.error "style id out of range"
      else Except.ok id
  | none =>
    if numStyles ≤ defaultId then Except.error "style id out of range"
    else Except.ok defaultId

theorem lookup_mem_values {α : Type} [BEq α] [LawfulBEq α]
    (l : List (α × Nat)) (k : α) (v : Nat) (h : l.lookup k = some v) :
    ∃ p ∈ l, p.2 = v := by
  induction l with
  | nil => simp [List.lookup] at h
  | cons p rest ih =>
    rw [List.lookup] at h
    by_cases hk : k == p.1
    · simp [hk] at h
      exact ⟨p, by simp, h⟩
    · simp [hk] at h
      obtain ⟨q, hq, hv⟩ := ih h
      exact ⟨q, by simp [hq], hv⟩

theorem loadStyle2id_values_lt (cfg : List (String × Nat)) (numStyles : Nat)
    (hn : 1 ≤ numStyles) (name : String) (id : Nat)
    (h : (loadStyle2id cfg numStyles).lookup name = some id) :
    id < numStyles := by
  obtain ⟨p, hp, hv⟩ := lookup_mem_values _ _ _ h
  unfold loadStyle2id at hp
  by_cases hc : cfg.isEmpty
  · simp [hc] at hp
    obtain ⟨i, hi, hpe⟩ := hp
    have hpi : p.2 = i := by rw [← hpe]
    omega
  · simp [hc] at hp
    obtain ⟨a, b, hab, hpe⟩ := hp
    have : p.2 = min b (numStyles - 1) := by rw [← hpe]
    omega

/-! ### Claim theorems C4, C9, C10 -/

/-- **C4.** When `add_blank` is enabled, the blank-interspersion step of
`infer_chinese` (intersperse a pad between every entry of the phone-id
list and surround with pads; double every `word2ph` entry and add 1 to
the first entry) preserves the invariant `sum(word2ph) == len(phones)`:
if the sum and length agree before the step, they agree after it.  The
`word2ph` handed to this step comes from `g2p`, whose output always has
at least the two sentinel entries, whence the non-emptiness hypothesis. -/
theorem c4_add_blank (phoneIds : List Int) (w : List Nat)
    (hsum : w.sum = phoneIds.length) (hne : w ≠ []) :
    (addBlankWord2ph w).sum = (intersperse phoneIds 0).length := by
  rw [addBlankWord2ph_sum w hne, intersperse_length, hsum]

theorem c4_witness :
    ([1, 2, 1] : List Nat).sum = ([5, 6, 7, 8] : List Int).length ∧
    ([1, 2, 1] : List Nat) ≠ [] ∧
    (addBlankWord2ph [1, 2, 1]).sum = (intersperse [5, 6, 7, 8] 0).length :=
  ⟨by decide, by decide, c4_add_blank [5, 6, 7, 8] [1, 2, 1] (by decide) (by decide)⟩

theorem except_bind_isOk {α β γ : Type} (e : Except γ α) (f : α → Except γ β) :
    (e.bind f).isOk = true ↔ ∃ a, e = Except.ok a ∧ (f a).isOk = true := by
  cases e <;> simp [Except.bind, Except.isOk, Except.toBool]

theorem except_bind_eq_ok {α β γ : Type} (e : Except γ α) (f : α → Except γ β)
    (b : β) :
    e.bind f = Except.ok b ↔ ∃ a, e = Except.ok a ∧ f a = Except.ok b := by
  cases e <;> simp [Except.bind]

theorem rustClamp_mem (x : ℚ) : 0 ≤ rustClamp x 0 1 ∧ rustClamp x 0 1 ≤ 1 := by
  unfold rustClamp
  split_ifs <;> constructor <;> linarith

/-- The Except value `e` succeeds exactly when it is an `ok`. -/
theorem except_isOk_iff_exists {α γ : Type} (e : Except γ α) :
    e.isOk = true ↔ ∃ a, e = Except.ok a := by
  cases e <;> simp [Except.isOk, Except.toBool]

/-- The four numeric fields tracked through the `build_request` stages. -/
def PresNum (r r' : TtsRequest) : Prop :=
  r'.sdpRatioVal = r.sdpRatioVal ∧ r'.noiseVal = r.noiseVal ∧
  r'.noiseWVal = r.noiseWVal ∧ r'.lengthScale = r.lengthScale

theorem checkSpeaker_ok_iff (speakers : List String) (sp : Option String)
    (r : TtsRequest) :
    (∃ r', checkSpeaker speakers sp r = Except.ok r') ↔
      ∀ s, sp = some s → speakers.contains s = true := by
  cases sp with
  | none => simp [checkSpeaker]
  | some s => by_cases hc : s ∈ speakers <;> simp [checkSpeaker, hc]

theorem checkStyle_ok_iff (styles : List String) (st : Option String)
    (r : TtsRequest) :
    (∃ r', checkStyle styles st r = Except.ok r') ↔
      ∀ s, st = some s → styles.contains s = true := by
  cases st with
  | none => simp [checkStyle]
  | some s => by_cases hc : s ∈ styles <;> simp [checkStyle, hc]

theorem checkStyleWeight_ok_iff (w : Option ℚ) (r : TtsRequest) :
    (∃ r', checkStyleWeight w r = Except.ok r') ↔
      ∀ x, w = some x → 0 ≤ x ∧ x ≤ 1 := by
  cases w with
  | none => simp [checkStyleWeight]
  | some x => by_cases hc : 0 ≤ x ∧ x ≤ 1 <;> simp [checkStyleWeight, hc]

theorem checkLengthScale_ok_iff (v : Option ℚ) (r : TtsRequest) :
    (∃ r', checkLengthScale v r = Except.ok r') ↔
      ∀ x, v = some x → 0 < x := by
  cases v with
  | none => simp [checkLengthScale]
  | some x =>
    by_cases hc : x ≤ 0
    · simp [checkLengthScale, hc]
    · simp [checkLengthScale, hc]
      linarith

theorem checkAssistWeight_ok_iff (w : Option ℚ) (r : TtsRequest) :
    (∃ r', checkAssistWeight w r = Except.ok r') ↔
      ∀ x, w = some x → 0 ≤ x ∧ x ≤ 1 := by
  cases w with
  | none => simp [checkAssistWeight]
  | some x => by_cases hc : 0 ≤ x ∧ x ≤ 1 <;> simp [checkAssistWeight, hc]

theorem checkSpeaker_pres (speakers : List String) (sp : Option String)
    (r r' : TtsRequest) (h : checkSpeaker speakers sp r = Except.ok r') :
    PresNum r r' := by
  cases sp with
  | none => rw [checkSpeaker] at h; cases h; exact ⟨rfl, rfl, rfl, rfl⟩
  | some s =>
    rw [checkSpeaker] at h
    split at h
    · cases h; exact ⟨rfl, rfl, rfl, rfl⟩
    · cases h

theorem checkStyle_pres (styles : List String) (st : Option String)
    (r r' : TtsRequest) (h : checkStyle styles st r = Except.ok r') :
    PresNum r r' := by
  cases st with
  | none => rw [checkStyle] at h; cases h; exact ⟨rfl, rfl, rfl, rfl⟩
  | some s =>
    rw [checkStyle] at h
    split at h
    · cases h; exact ⟨rfl, rfl, rfl, rfl⟩
    · cases h

theorem checkStyleWeight_pres (w : Option ℚ) (r r' : TtsRequest)
    (h : checkStyleWeight w r = Except.ok r') : PresNum r r' := by
  cases w with
  | none => rw [checkStyleWeight] at h; cases h; exact ⟨rfl, rfl, rfl, rfl⟩
  | some x =>
    rw [checkStyleWeight] at h
    split at h
    · cases h; exact ⟨rfl, rfl, rfl, rfl⟩
    · cases h

theorem checkAssistWeight_pres (w : Option ℚ) (r r' : TtsRequest)
    (h : checkAssistWeight w r = Except.ok r') : PresNum r r' := by
  cases w with
  | none => rw [checkAssistWeight] at h; cases h; exact ⟨rfl, rfl, rfl, rfl⟩
  | some x =>
    rw [checkAssistWeight] at h
    split at h
    · cases h; exact ⟨rfl, rfl, rfl, rfl⟩
    · cases h

theorem applyAssistText_pres (t : Option String) (r : TtsRequest) :
    PresNum r (applyAssistText t r) := by
  cases t <;> exact ⟨rfl, rfl, rfl, rfl⟩

theorem checkLengthScale_fields (v : Option ℚ) (r r' : TtsRequest)
    (h : checkLengthScale v r = Except.ok r') :
    r'.sdpRatioVal = r.sdpRatioVal ∧ r'.noiseVal = r.noiseVal ∧
    r'.noiseWVal = r.noiseWVal ∧
    (v = none → r'.lengthScale = r.lengthScale) ∧
    (∀ x, v = some x → r'.lengthScale = x ∧ 0 < x) := by
  cases v with
  | none =>
    rw [checkLengthScale] at h; cases h
    exact ⟨rfl, rfl, rfl, fun _ => rfl, by simp⟩
  | some x =>
    rw [checkLengthScale] at h
    split at h
    · cases h
    · next hc =>
      cases h
      refine ⟨rfl, rfl, rfl, by simp, ?_⟩
      intro y hy
      cases hy
      exact ⟨rfl, by linarith [not_le.mp hc]⟩

theorem applySdp_fields (v : Option ℚ) (r : TtsRequest) :
    (applySdp v r).noiseVal = r.noiseVal ∧
    (applySdp v r).noiseWVal = r.noiseWVal ∧
    (applySdp v r).lengthScale = r.lengthScale ∧
    (v = none → (applySdp v r).sdpRatioVal = r.sdpRatioVal) ∧
    (∀ x, v = some x → (applySdp v r).sdpRatioVal = rustClamp x 0 1) := by
  cases v <;> simp [applySdp]

theorem applyNoise_fields (v : Option ℚ) (r : TtsRequest) :
    (applyNoise v r).sdpRatioVal = r.sdpRatioVal ∧
    (applyNoise v r).noiseWVal = r.noiseWVal ∧
    (applyNoise v r).lengthScale = r.lengthScale ∧
    (v = none → (applyNoise v r).noiseVal = r.noiseVal) ∧
    (∀ x, v = some x → (applyNoise v r).noiseVal = max x 0) := by
  cases v <;> simp [applyNoise]

theorem applyNoiseW_fields (v : Option ℚ) (r : TtsRequest) :
    (applyNoiseW v r).sdpRatioVal = r.sdpRatioVal ∧
    (applyNoiseW v r).noiseVal = r.noiseVal ∧
    (applyNoiseW v r).lengthScale = r.lengthScale ∧
    (v = none → (applyNoiseW v r).noiseWVal = r.noiseWVal) ∧
    (∀ x, v = some x → (applyNoiseW v r).noiseWVal = max x 0) := by
  cases v <;> simp [applyNoiseW]

/-- Success of `build_request` depends exactly on the five validation
checks; the clamped parameters (`sdp_ratio`, `noise`, `noise_w`) and the
assist text never cause failure. -/
theorem buildRequest_isOk_iff (speakers styles : List String)
    (input : SynthesisInput) :
    (buildRequest speakers styles input).isOk = true ↔
      ((∀ s, input.speaker = some s → speakers.contains s = true) ∧
       (∀ s, input.style = some s → styles.contains s = true) ∧
       (∀ w, input.styleWeight = some w → 0 ≤ w ∧ w ≤ 1) ∧
       (∀ v, input.lengthScale = some v → 0 < v) ∧
       (∀ w, input.assistWeight = some w → 0 ≤ w ∧ w ≤ 1)) := by
  rw [buildRequest]
  constructor
  · intro h
    rw [except_bind_isOk] at h
    obtain ⟨r1, h1, h⟩ := h
    rw [except_bind_isOk] at h
    obtain ⟨r2, h2, h⟩ := h
    rw [except_bind_isOk] at h
    obtain ⟨r3, h3, h⟩ := h
    rw [except_bind_isOk] at h
    obtain ⟨r7, h7, h⟩ := h
    rw [except_isOk_iff_exists] at h
    exact ⟨(checkSpeaker_ok_iff _ _ _).1 ⟨r1, h1⟩,
      (checkStyle_ok_iff _ _ _).1 ⟨r2, h2⟩,
      (checkStyleWeight_ok_iff _ _).1 ⟨r3, h3⟩,
      (checkLengthScale_ok_iff _ _).1 ⟨r7, h7⟩,
      (checkAssistWeight_ok_iff _ _).1 h⟩
  · rintro ⟨c1, c2, c3, c4, c5⟩
    obtain ⟨r1, h1⟩ := (checkSpeaker_ok_iff speakers input.speaker
      defaultRequest).2 c1
    obtain ⟨r2, h2⟩ := (checkStyle_ok_iff styles input.style r1).2 c2
    obtain ⟨r3, h3⟩ := (checkStyleWeight_ok_iff input.styleWeight r2).2 c3
    obtain ⟨r7, h7⟩ := (checkLengthScale_ok_iff input.lengthScale
      (applyNoiseW input.noiseWVal
        (applyNoise input.noiseVal (applySdp input.sdpRatioVal r3)))).2 c4
    obtain ⟨r9, h9⟩ := (checkAssistWeight_ok_iff input.assistWeight
      (applyAssistText input.assistText r7)).2 c5
    rw [except_bind_isOk]
    refine ⟨r1, h1, ?_⟩
    rw [except_bind_isOk]
    refine ⟨r2, h2, ?_⟩
    rw [except_bind_isOk]
    refine ⟨r3, h3, ?_⟩
    rw [except_bind_isOk]
    refine ⟨r7, h7, ?_⟩
    rw [except_isOk_iff_exists]
    exact ⟨r9, h9⟩

theorem buildRequest_ok_fields (speakers styles : List String)
    (input : SynthesisInput) (r : TtsRequest)
    (h : buildRequest speakers styles input = Except.ok r) :
    (0 ≤ r.sdpRatioVal ∧ r.sdpRatioVal ≤ 1) ∧
    0 ≤ r.noiseVal ∧ 0 ≤ r.noiseWVal ∧ 0 < r.lengthScale ∧
    (∀ v, input.sdpRatioVal = some v → r.sdpRatioVal = rustClamp v 0 1) ∧
    (∀ v, input.noiseVal = some v → r.noiseVal = max v 0) ∧
    (∀ v, input.noiseWVal = some v → r.noiseWVal = max v 0) := by
  rw [buildRequest, except_bind_eq_ok] at h
  obtain ⟨r1, h1, h⟩ := h
  rw [except_bind_eq_ok] at h
  obtain ⟨r2, h2, h⟩ := h
  rw [except_bind_eq_ok] at h
  obtain ⟨r3, h3, h⟩ := h
  rw [except_bind_eq_ok] at h
  obtain ⟨r7, h7, h⟩ := h
  have p1 := checkSpeaker_pres _ _ _ _ h1
  have p2 := checkStyle_pres _ _ _ _ h2
  have p3 := checkStyleWeight_pres _ _ _ h3
  have fsdp := applySdp_fields input.sdpRatioVal r3
  have fno := applyNoise_fields input.noiseVal (applySdp input.sdpRatioVal r3)
  have fnw := applyNoiseW_fields input.noiseWVal
    (applyNoise input.noiseVal (applySdp input.sdpRatioVal r3))
  have fls := checkLengthScale_fields _ _ _ h7
  have p8 := applyAssistText_pres input.assistText r7
  have p9 := checkAssistWeight_pres _ _ _ h
  obtain ⟨q1, q2, q3, q4⟩ := p1
  obtain ⟨w1, w2, w3, w4⟩ := p2
  obtain ⟨e1, e2, e3, e4⟩ := p3
  obtain ⟨a1, a2, a3, a4, a5⟩ := fsdp
  obtain ⟨b1, b2, b3, b4, b5⟩ := fno
  obtain ⟨d1, d2, d3, d4, d5⟩ := fnw
  obtain ⟨g1, g2, g3, g4, g5⟩ := fls
  obtain ⟨m1, m2, m3, m4⟩ := p8
  obtain ⟨n1, n2, n3, n4⟩ := p9
  have hsdpv : r.sdpRatioVal =
      (applySdp input.sdpRatioVal r3).sdpRatioVal := by
    rw [n1, m1, g1, d1, b1]
  have hnov : r.noiseVal = (applyNoise input.noiseVal
      (applySdp input.sdpRatioVal r3)).noiseVal := by
    rw [n2, m2, g2, d2]
  have hnwv : r.noiseWVal = (applyNoiseW input.noiseWVal
      (applyNoise input.noiseVal (applySdp input.sdpRatioVal r3))).noiseWVal := by
    rw [n3, m3, g3]
  have hd3 : r3.sdpRatioVal = 1/5 := by
    rw [e1, w1, q1]; rfl
  have hno3 : (applySdp input.sdpRatioVal r3).noiseVal = 3/5 := by
    rw [a1, e2, w2, q2]; rfl
  have hnw3 : (applyNoise input.noiseVal
      (applySdp input.sdpRatioVal r3)).noiseWVal = 4/5 := by
    rw [b2, a2, e3, w3, q3]; rfl
  refine ⟨?_, ?_, ?_, ?_, ?_, ?_, ?_⟩
  · rw [hsdpv]
    cases hv : input.sdpRatioVal with
    | none => simp only [applySdp]; rw [hd3]; norm_num
    | some x => simp only [applySdp]; exact rustClamp_mem x
  · rw [hnov]
    cases hv : input.noiseVal with
    | none => simp only [applyNoise]; rw [hno3]; norm_num
    | some x => simp only [applyNoise]; exact le_max_right x 0
  · rw [hnwv]
    cases hv : input.noiseWVal with
    | none => simp only [applyNoiseW]; rw [hnw3]; norm_num
    | some x => simp only [applyNoiseW]; exact le_max_right x 0
  · have hls : r.lengthScale = r7.lengthScale := by rw [n4, m4]
    cases hv : input.lengthScale with
    | none =>
      rw [hls, g4 hv, d3, b3, a3, e4, w4, q4]
      norm_num [defaultRequest]
    | some x =>
      obtain ⟨hx1, hx2⟩ := g5 x hv
      rw [hls, hx1]; exact hx2
  · intro v hv
    rw [hsdpv, a5 v hv]
  · intro v hv
    rw [hnov, b5 v hv]
  · intro v hv
    rw [hnwv, d5 v hv]

/-- **C9.** The synthesizer facade returns an error for text that is
empty after trim, for a supplied speaker or style name that is not
configured, for `style_weight` or `assist_weight` outside `[0,1]`, and
for `length_scale ≤ 0`; whereas a supplied `sdp_ratio` is clamped into
`[0,1]` and supplied `noise` and `noise_w` are clamped to `≥ 0` rather
than rejected.  Stated as: success holds exactly when none of the
rejection conditions does (so the clamped parameters never cause an
error), and every successful request carries the clamped values. -/
theorem c9_validation (speakers styles : List String)
    (input : SynthesisInput) :
    ((synthesizeCheck speakers styles input).isOk = true ↔
      (rustTrim input.text ≠ [] ∧
       (∀ s, input.speaker = some s → speakers.contains s = true) ∧
       (∀ s, input.style = some s → styles.contains s = true) ∧
       (∀ w, input.styleWeight = some w → 0 ≤ w ∧ w ≤ 1) ∧
       (∀ v, input.lengthScale = some v → 0 < v) ∧
       (∀ w, input.assistWeight = some w → 0 ≤ w ∧ w ≤ 1))) ∧
    (∀ r, synthesizeCheck speakers styles input = Except.ok r →
      (0 ≤ r.sdpRatioVal ∧ r.sdpRatioVal ≤ 1) ∧
      0 ≤ r.noiseVal ∧ 0 ≤ r.noiseWVal ∧ 0 < r.lengthScale ∧
      (∀ v, input.sdpRatioVal = some v → r.sdpRatioVal = rustClamp v 0 1) ∧
      (∀ v, input.noiseVal = some v → r.noiseVal = max v 0) ∧
      (∀ v, input.noiseWVal = some v → r.noiseWVal = max v 0)) := by
  constructor
  · by_cases ht : rustTrim input.text = []
    · simp [synthesizeCheck, ht, Except.isOk, Except.toBool]
    · rw [synthesizeCheck, if_neg ht, buildRequest_isOk_iff]
      simp [ht]
  · intro r hr
    rw [synthesizeCheck] at hr
    split at hr
    · cases hr
    · exact buildRequest_ok_fields _ _ _ _ hr

theorem c9_witness :
    (synthesizeCheck ["alice"] ["Neutral"]
      { text := ['你'], speaker := some "alice", style := none,
        styleWeight := some (1/2), sdpRatioVal := some 2, noiseVal := none,
        noiseWVal := none, lengthScale := some 1, assistText := none,
        assistWeight := none }).isOk = true := by
  refine (c9_validation ["alice"] ["Neutral"] _).1.2 ⟨?_, ?_, ?_, ?_, ?_, ?_⟩
  · decide
  · intro s hs
    cases hs
    decide
  · intro s hs
    cases hs
  · intro w hw
    cases hw
    norm_num
  · intro v hv
    cases hv
    norm_num
  · intro w hw
    cases hw

/-- **C10.** In a `TtsProject` produced by `load`, every id stored in
`style2id` and the `default_style_id` are at most `num_styles - 1`
(`num_styles = style_vectors.nrows() ≥ 1`), so the "style id out of
range" branch of `make_style_vector` is unreachable both for any style
name present in `style2id` and for the default style. -/
theorem c10_style_id_in_range (cfg : List (String × Nat)) (numStyles : Nat)
    (hn : 1 ≤ numStyles) :
    (∀ name id, (loadStyle2id cfg numStyles).lookup name = some id →
      makeStyleVectorId (loadStyle2id cfg numStyles)
        (defaultStyleId (loadStyle2id cfg numStyles) numStyles) numStyles
        (some name) = Except.ok id) ∧
    makeStyleVectorId (loadStyle2id cfg numStyles)
      (defaultStyleId (loadStyle2id cfg numStyles) numStyles) numStyles none
      = Except.ok (defaultStyleId (loadStyle2id cfg numStyles) numStyles) := by
  constructor
  · intro name id h
    have hlt := loadStyle2id_values_lt cfg numStyles hn name id h
    simp [makeStyleVectorId, h, Nat.not_le.mpr hlt]
  · have hd : defaultStyleId (loadStyle2id cfg numStyles) numStyles <
        numStyles := by
      unfold defaultStyleId
      omega
    simp [makeStyleVectorId, Nat.not_le.mpr hd]

theorem c10_witness :
    makeStyleVectorId (loadStyle2id [("A", 5)] 3)
      (defaultStyleId (loadStyle2id [("A", 5)] 3) 3) 3 (some "A")
      = Except.ok 2 ∧
    makeStyleVectorId (loadStyle2id [("A", 5)] 3)
      (defaultStyleId (loadStyle2id [("A", 5)] 3) 3) 3 none
      = Except.ok (defaultStyleId (loadStyle2id [("A", 5)] 3) 3) := by
  have h := c10_style_id_in_range [("A", 5)] 3 (by decide)
  exact ⟨h.1 "A" 2 (by decide), h.2⟩

/-! ### `src/nlp/chinese/g2p.rs` — `g2p` post-processing (claims C1, C3, C5)

`g2p` (lines 36-150) splits the text into sentences, runs
`process_sentence` on each (jieba segmentation, tone sandhi, pinyin and
the English fallback) and concatenates the per-sentence phones, tones and
`word2ph` counts.  The post-processing of lines 56-148 is modelled below
as a function of the text characters and of those concatenated
per-sentence results (`segP`, `segT`, `segW`), which stand for whatever
the segmenter-dependent front half produced. -/

/-- Rust `char::is_ascii_whitespace`: space, tab, newline, form feed,
carriage return. -/
def isAsciiWs (c : Char) : Bool :=
  c = ' ' ∨ c = '\t' ∨ c = '\n' ∨ c = '\x0c' ∨ c = '\r'

/-- Lines 56-75 of `g2p`, restricted to the middle entries: the word2ph
vector is `1 :: segW ++ [1]`, padded with zeros or truncated to length
`chars + 2`, after which its first and last entries are (re)set to 1.
Writing the resulting vector as `1 :: mid ++ [1]`, this computes `mid`
(note that after padding, the old trailing sentinel 1 is left stranded
inside the middle section). -/
def g2pMid (chars : List Char) (segW : List Nat) : List Nat :=
  if segW.length < chars.length then
    segW ++ 1 :: List.replicate (chars.length - segW.length - 1) 0
  else if chars.length < segW.length then segW.take chars.length
  else segW

/-- Lines 77-85 of `g2p`: zero every `word2ph` entry aligned to an ASCII
whitespace character.  The guard `pos < word2ph.len() - 1` is vacuous
because `pos = idx + 1 ≤ chars < chars + 1`. -/
def zeroWsMid (chars : List Char) (mid : List Nat) : List Nat :=
  List.zipWith (fun c v => if isAsciiWs c then 0 else v) chars mid

/-- Lines 91-110 of `g2p` (the `sum < target` branch): walk the middle
entries left to right paired with their characters, incrementing each
non-whitespace entry once while the deficit lasts; return the new middle
entries and the residue that is added to the last element.  The guard
`pos ≥ word2ph.len() - 1` is vacuous as above. -/
def incWalk : List (Char × Nat) → Nat → List Nat × Nat
  | [], r => ([], r)
  | (c, v) :: rest, r =>
    if r = 0 then (v :: rest.map Prod.snd, 0)
    else if isAsciiWs c then
      let p := incWalk rest r
      (v :: p.1, p.2)
    else
      let p := incWalk rest (r - 1)
      ((v + 1) :: p.1, p.2)

/-- Lines 112-130 of `g2p` (the `sum > target` branch), acting on the
reversed char/entry pairs (the source iterates `.rev()`): skip zero
entries and whitespace, subtract `min remaining entry` from the others;
return the new (still reversed) middle entries and the residue that is
later subtracted from the last element. -/
def decWalkRev : List (Char × Nat) → Nat → List Nat × Nat
  | [], r => ([], r)
  | (c, v) :: rest, r =>
    if r = 0 then (v :: rest.map Prod.snd, 0)
    else if v = 0 ∨ isAsciiWs c then
      let p := decWalkRev rest r
      (v :: p.1, p.2)
    else
      let p := decWalkRev rest (r - min r v)
      ((v - min r v) :: p.1, p.2)

/-- Lines 87-138 of `g2p`: compare the current word2ph sum
`s = 1 + mid.sum + 1` against `target = phones.len()` and reconcile,
returning the new middle entries together with the new value of the last
element (which starts out as 1; the increment branch adds the residue to
it, the decrement branch subtracts `min residue last`). -/
def reconcileMid (chars : List Char) (mid1 : List Nat) (target : Nat) :
    List Nat × Nat :=
  let s := 1 + mid1.sum + 1
  if s < target then
    let p := incWalk (chars.zip mid1) (target - s)
    (p.1, 1 + p.2)
  else if target < s then
    let p := decWalkRev ((chars.zip mid1).reverse) (s - target)
    (p.1.reverse, 1 - min p.2 1)
  else (mid1, 1)

/-- `g2p` lines 56-148 as a whole: sentinel insertion, length fix-up,
whitespace zeroing, sum reconciliation and the final first/last fix-up
(lines 140-148: the first entry is reset to 1 — it already is 1 — and the
last entry is reset to 1 only when it is 0), returning
`(phones, tones, word2ph)`. -/
def g2pPost (chars : List Char) (segP : List String) (segT : List Int)
    (segW : List Nat) : List String × List Int × List Nat :=
  let phones := "_" :: (segP ++ ["_"])
  let tones : List Int := 0 :: (segT ++ [0])
  let mid1 := zeroWsMid chars (g2pMid chars segW)
  let midLast := reconcileMid chars mid1 phones.length
  let lastF := if midLast.2 = 0 then 1 else midLast.2
  (phones, tones, 1 :: (midLast.1 ++ [lastF]))

theorem g2pMid_length (chars : List Char) (segW : List Nat) :
    (g2pMid chars segW).length = chars.length := by
  unfold g2pMid
  split_ifs with h1 h2
  · simp
    omega
  · simp
    omega
  · omega

theorem zeroWsMid_length (chars : List Char) (mid : List Nat)
    (h : mid.length = chars.length) :
    (zeroWsMid chars mid).length = chars.length := by
  simp [zeroWsMid, h]

theorem incWalk_length (l : List (Char × Nat)) (r : Nat) :
    (incWalk l r).1.length = l.length := by
  induction l generalizing r with
  | nil => simp [incWalk]
  | cons p rest ih =>
    obtain ⟨c, v⟩ := p
    rw [incWalk]
    split_ifs <;> simp [ih]

theorem decWalkRev_length (l : List (Char × Nat)) (r : Nat) :
    (decWalkRev l r).1.length = l.length := by
  induction l generalizing r with
  | nil => simp [decWalkRev]
  | cons p rest ih =>
    obtain ⟨c, v⟩ := p
    rw [decWalkRev]
    split_ifs <;> simp [ih]

theorem incWalk_sum (l : List (Char × Nat)) (r : Nat) :
    (incWalk l r).1.sum + (incWalk l r).2 = (l.map Prod.snd).sum + r := by
  induction l generalizing r with
  | nil => simp [incWalk]
  | cons p rest ih =>
    obtain ⟨c, v⟩ := p
    rw [incWalk]
    split_ifs with h0 hws
    · simp [h0]
    · simp only [List.map_cons, List.sum_cons]
      have := ih r
      omega
    · simp only [List.map_cons, List.sum_cons]
      have := ih (r - 1)
      omega

theorem decWalkRev_sum (l : List (Char × Nat)) (r : Nat) :
    (decWalkRev l r).1.sum + r = (l.map Prod.snd).sum + (decWalkRev l r).2 := by
  induction l generalizing r with
  | nil => simp [decWalkRev]
  | cons p rest ih =>
    obtain ⟨c, v⟩ := p
    rw [decWalkRev]
    split_ifs with h0 hsk
    · simp [h0]
    · simp only [List.map_cons, List.sum_cons]
      have := ih r
      omega
    · simp only [List.map_cons, List.sum_cons]
      have := ih (r - min r v)
      have hv : ¬v = 0 := by tauto
      have hmin : min r v ≤ v := min_le_right r v
      have hminr : min r v ≤ r := min_le_left r v
      omega

/-- Every whitespace-aligned entry of `zeroWsMid` is 0. -/
theorem zeroWsMid_ws (chars : List Char) (mid : List Nat) :
    ∀ p ∈ chars.zip (zeroWsMid chars mid), isAsciiWs p.1 → p.2 = 0 := by
  induction chars generalizing mid with
  | nil => simp
  | cons c cs ih =>
    cases mid with
    | nil => simp [zeroWsMid]
    | cons v vs =>
      intro p hp hws
      simp only [zeroWsMid, List.zipWith_cons_cons, List.zip_cons_cons,
        List.mem_cons] at hp
      rcases hp with hp | hp
      · subst hp
        simp only at hws ⊢
        simp [hws]
      · exact ih vs p hp hws

/-- When the walked pairs carry 0 on every whitespace position, the
decrement walk with a demand not exceeding the total sum drains the
demand completely (residue 0). -/
theorem decWalkRev_residue (l : List (Char × Nat)) (r : Nat)
    (hws : ∀ p ∈ l, isAsciiWs p.1 → p.2 = 0)
    (hr : r ≤ (l.map Prod.snd).sum) :
    (decWalkRev l r).2 = 0 := by
  induction l generalizing r with
  | nil =>
    simp at hr
    simp [decWalkRev, hr]
  | cons p rest ih =>
    obtain ⟨c, v⟩ := p
    rw [decWalkRev]
    split_ifs with h0 hsk
    · rfl
    · have hv : v = 0 := by
        rcases hsk with h | h
        · exact h
        · exact hws (c, v) (by simp) h
      apply ih
      · intro q hq
        exact hws q (by simp [hq])
      · simp [hv] at hr
        simpa using hr
    · apply ih
      · intro q hq
        exact hws q (by simp [hq])
      · simp only [List.map_cons, List.sum_cons] at hr
        have hmin : min r v ≤ v := min_le_right r v
        have hminr : min r v ≤ r := min_le_left r v
        omega

/-- The reconciliation step restores `1 + mid.sum + last = target`
whenever every whitespace-aligned middle entry is 0 (which the zeroing
pass guarantees) and the target counts the two sentinel phones; the
resulting last element is never 0. -/
theorem reconcileMid_spec (chars : List Char) (mid1 : List Nat)
    (target : Nat) (hlen : mid1.length = chars.length)
    (hws : ∀ p ∈ chars.zip mid1, isAsciiWs p.1 → p.2 = 0)
    (htarget : 2 ≤ target) :
    (reconcileMid chars mid1 target).1.length = chars.length ∧
    1 + (reconcileMid chars mid1 target).1.sum +
      (reconcileMid chars mid1 target).2 = target ∧
    (reconcileMid chars mid1 target).2 ≠ 0 := by
  have hziplen : (chars.zip mid1).length = chars.length := by
    simp [List.length_zip, hlen]
  have hmap : (chars.zip mid1).map Prod.snd = mid1 :=
    List.map_snd_zip _ _ (le_of_eq hlen)
  dsimp only [reconcileMid]
  split_ifs with h1 h2
  · -- increment branch
    have hiw := incWalk_sum (chars.zip mid1) (target - (1 + mid1.sum + 1))
    have hlw := incWalk_length (chars.zip mid1) (target - (1 + mid1.sum + 1))
    rw [hmap] at hiw
    refine ⟨by dsimp only; rw [hlw, hziplen], by dsimp only; omega,
      by dsimp only; omega⟩
  · -- decrement branch
    have hwsr : ∀ p ∈ (chars.zip mid1).reverse, isAsciiWs p.1 → p.2 = 0 := by
      intro p hp
      exact hws p (List.mem_reverse.mp hp)
    have hmapr : ((chars.zip mid1).reverse.map Prod.snd).sum = mid1.sum := by
      rw [List.map_reverse]
      rw [List.sum_reverse, hmap]
    have hres := decWalkRev_residue ((chars.zip mid1).reverse)
      (1 + mid1.sum + 1 - target) hwsr (by omega)
    have hds := decWalkRev_sum ((chars.zip mid1).reverse)
      (1 + mid1.sum + 1 - target)
    have hlw := decWalkRev_length ((chars.zip mid1).reverse)
      (1 + mid1.sum + 1 - target)
    rw [hmapr, hres] at hds
    refine ⟨?_, ?_, ?_⟩
    · rw [List.length_reverse, hlw, List.length_reverse, hziplen]
    · rw [List.sum_reverse, hres]
      simp only [Nat.min_zero, Nat.zero_min]
      omega
    · rw [hres]
      simp
  · -- sums already agree
    exact ⟨hlen, by dsimp only; omega, one_ne_zero⟩

/-- **C1.** For every text on which `g2p` returns successfully, the
returned triple satisfies `len(phones) = len(tones)`,
`sum(word2ph) = len(phones)` and `len(word2ph) = char_count(text) + 2`.
The segmenter-dependent front half of `g2p` is abstracted into the
concatenated per-sentence results `segP`/`segT`/`segW`;
`process_sentence` always pushes phones and tones in equal numbers
(each syllable contributes `count` of each; the English branch zips
phones with tones), which is the only hypothesis needed. -/
theorem c1_g2p_shape (chars : List Char) (segP : List String)
    (segT : List Int) (segW : List Nat) (hlen : segP.length = segT.length) :
    (g2pPost chars segP segT segW).1.length =
      (g2pPost chars segP segT segW).2.1.length ∧
    (g2pPost chars segP segT segW).2.2.sum =
      (g2pPost chars segP segT segW).1.length ∧
    (g2pPost chars segP segT segW).2.2.length = chars.length + 2 := by
  have hm1len : (zeroWsMid chars (g2pMid chars segW)).length = chars.length :=
    zeroWsMid_length _ _ (g2pMid_length _ _)
  have hws := zeroWsMid_ws chars (g2pMid chars segW)
  have htarget : 2 ≤ ("_" :: (segP ++ ["_"])).length := by simp
  obtain ⟨hql, hqs, hqn⟩ := reconcileMid_spec chars
    (zeroWsMid chars (g2pMid chars segW)) ("_" :: (segP ++ ["_"])).length
    hm1len hws htarget
  dsimp only [g2pPost]
  refine ⟨by simp [hlen], ?_, ?_⟩
  · rw [if_neg hqn]
    simp only [List.sum_cons, List.sum_append, List.sum_nil,
      List.length_cons, List.length_append, List.length_nil] at hqs hql ⊢
    omega
  · rw [if_neg hqn]
    simp only [List.length_cons, List.length_append, List.length_nil]
      at hqs hql ⊢
    omega

theorem c1_witness :
    (["n", "i"] : List String).length = ([3, 3] : List Int).length ∧
    ((g2pPost ['你'] ["n", "i"] [3, 3] [2]).1.length =
      (g2pPost ['你'] ["n", "i"] [3, 3] [2]).2.1.length ∧
    (g2pPost ['你'] ["n", "i"] [3, 3] [2]).2.2.sum =
      (g2pPost ['你'] ["n", "i"] [3, 3] [2]).1.length ∧
    (g2pPost ['你'] ["n", "i"] [3, 3] [2]).2.2.length = 1 + 2) :=
  ⟨by decide, c1_g2p_shape ['你'] ["n", "i"] [3, 3] [2] (by decide)⟩

/-- Pointwise invariant: relate a pair list to its `snd` projection. -/
theorem forall₂_map_snd (l : List (Char × Nat)) :
    List.Forall₂ (fun (p : Char × Nat) v => isAsciiWs p.1 → v = p.2) l
      (l.map Prod.snd) := by
  induction l with
  | nil => exact List.Forall₂.nil
  | cons p rest ih => exact List.Forall₂.cons (fun _ => rfl) ih

/-- The increment walk never touches whitespace-aligned entries. -/
theorem incWalk_ws_pointwise (l : List (Char × Nat)) (r : Nat) :
    List.Forall₂ (fun (p : Char × Nat) v => isAsciiWs p.1 → v = p.2) l
      (incWalk l r).1 := by
  induction l generalizing r with
  | nil => exact List.Forall₂.nil
  | cons p rest ih =>
    obtain ⟨c, v⟩ := p
    rw [incWalk]
    split_ifs with h0 hws
    · exact List.Forall₂.cons (fun _ => rfl) (forall₂_map_snd rest)
    · exact List.Forall₂.cons (fun _ => rfl) (ih r)
    · refine List.Forall₂.cons ?_ (ih (r - 1))
      intro hc
      exact absurd hc hws

/-- The decrement walk never touches whitespace-aligned entries. -/
theorem decWalkRev_ws_pointwise (l : List (Char × Nat)) (r : Nat) :
    List.Forall₂ (fun (p : Char × Nat) v => isAsciiWs p.1 → v = p.2) l
      (decWalkRev l r).1 := by
  induction l generalizing r with
  | nil => exact List.Forall₂.nil
  | cons p rest ih =>
    obtain ⟨c, v⟩ := p
    rw [decWalkRev]
    split_ifs with h0 hsk
    · exact List.Forall₂.cons (fun _ => rfl) (forall₂_map_snd rest)
    · exact List.Forall₂.cons (fun _ => rfl) (ih r)
    · refine List.Forall₂.cons ?_ (ih (r - min r v))
      intro hc
      exact absurd (Or.inr hc) hsk

/-- The whole reconciliation step never touches whitespace-aligned
entries. -/
theorem reconcileMid_ws_pointwise (chars : List Char) (mid1 : List Nat)
    (target : Nat) (hlen : mid1.length = chars.length) :
    List.Forall₂ (fun (p : Char × Nat) v => isAsciiWs p.1 → v = p.2)
      (chars.zip mid1) (reconcileMid chars mid1 target).1 := by
  have hmap : (chars.zip mid1).map Prod.snd = mid1 :=
    List.map_snd_zip _ _ (le_of_eq hlen)
  dsimp only [reconcileMid]
  split_ifs with h1 h2
  · exact incWalk_ws_pointwise _ _
  · dsimp only
    have h := decWalkRev_ws_pointwise ((chars.zip mid1).reverse)
      (1 + mid1.sum + 1 - target)
    rw [← List.reverse_reverse
      (decWalkRev ((chars.zip mid1).reverse) (1 + mid1.sum + 1 - target)).1]
      at h
    exact List.forall₂_reverse_iff.mp h
  · have h := forall₂_map_snd (chars.zip mid1)
    rw [hmap] at h
    exact h

/-- **C5.** For every text on which `g2p` returns successfully, every
`word2ph` entry aligned to an (ASCII) whitespace character of the text —
the entry at index `i+1` for the whitespace character at character index
`i` — equals 0.  This is structural: the zeroing pass (lines 77-85)
zeroes these entries and both reconciliation walks skip whitespace
positions, whatever the segmentation produced. -/
theorem c5_whitespace_zero (chars : List Char) (segP : List String)
    (segT : List Int) (segW : List Nat) (i : Nat) (hi : i < chars.length)
    (hws : isAsciiWs (chars.get ⟨i, hi⟩)) :
    (g2pPost chars segP segT segW).2.2[i + 1]? = some 0 := by
  have hm1len : (zeroWsMid chars (g2pMid chars segW)).length = chars.length :=
    zeroWsMid_length _ _ (g2pMid_length _ _)
  have hfa := reconcileMid_ws_pointwise chars
    (zeroWsMid chars (g2pMid chars segW)) ("_" :: (segP ++ ["_"])).length
    hm1len
  rw [List.forall₂_iff_get] at hfa
  obtain ⟨hfalen, hfaget⟩ := hfa
  have hziplen : (chars.zip (zeroWsMid chars (g2pMid chars segW))).length
      = chars.length := by
    simp [List.length_zip, hm1len]
  have hi1 : i < (chars.zip (zeroWsMid chars (g2pMid chars segW))).length := by
    omega
  have hi2 : i < (reconcileMid chars (zeroWsMid chars (g2pMid chars segW))
      ("_" :: (segP ++ ["_"])).length).1.length := by
    omega
  have hq := hfaget i hi1 hi2
  simp only [List.get_eq_getElem, List.getElem_zip] at hq
  simp only [List.get_eq_getElem] at hws
  have hmz : (zeroWsMid chars (g2pMid chars segW))[i] = 0 := by
    simp only [zeroWsMid, List.getElem_zipWith]
    rw [if_pos hws]
  have hq0 : (reconcileMid chars (zeroWsMid chars (g2pMid chars segW))
      ("_" :: (segP ++ ["_"])).length).1[i] = 0 := by
    rw [hq hws]
    exact hmz
  dsimp only [g2pPost]
  rw [List.getElem?_cons_succ]
  rw [List.getElem?_append_left (by omega)]
  rw [List.getElem?_eq_getElem (by omega)]
  rw [hq0]

theorem c5_witness :
    1 < (['a', ' ', 'b'] : List Char).length ∧
    (g2pPost ['a', ' ', 'b'] ["x"] [1] [1, 0, 1]).2.2[1 + 1]? = some 0 :=
  ⟨by decide, c5_whitespace_zero ['a', ' ', 'b'] ["x"] [1] [1, 0, 1] 1
    (by decide) (by decide)⟩

/-! ### `src/nlp/bert.rs` — `align_word2ph` (claim C2) -/

/-- The per-character byte spans of `align_word2ph`
(`src/nlp/bert.rs` lines 347-356): for each source character its UTF-8
byte range together with the `word2ph` count at `idx + 1`. -/
def mkSpans : List Char → Nat → List Nat → List (Nat × Nat × Nat)
  | [], _, _ => []
  | c :: cs, b, counts =>
    (b, b + c.utf8Size, counts.headD 0) :: mkSpans cs (b + c.utf8Size) counts.tail

/-- The inner `while` of `align_word2ph` (lines 379-393): starting from
the character cursor, skip spans wholly before the token (`c_end ≤
start`), stop at the first span at-or-after the token end
(`c_start ≥ end`), and accumulate the counts of the overlapping spans;
returns the accumulated total and the spans still ahead of the new
cursor. -/
def consumeSpans (s e : Nat) : List (Nat × Nat × Nat) → Nat × List (Nat × Nat × Nat)
  | [] => (0, [])
  | (cs, ce, cnt) :: rest =>
    if ce ≤ s then consumeSpans s e rest
    else if e ≤ cs then (0, (cs, ce, cnt) :: rest)
    else
      let p := consumeSpans s e rest
      (cnt + p.1, p.2)

/-- The token loop of `align_word2ph` (lines 362-395): the first token
gets `word2ph[0]`, the last gets `word2ph.last()`, `(0,0)`-offset
mid-tokens get 0, and every other token consumes overlapping character
spans through the shared cursor. -/
def alignLoop (leading trailing total : Nat) :
    List (Nat × Nat) → Nat → List (Nat × Nat × Nat) → List Nat
  | [], _, _ => []
  | (s, e) :: rest, idx, spans =>
    if idx = 0 then
      leading :: alignLoop leading trailing total rest (idx + 1) spans
    else if idx = total - 1 then
      trailing :: alignLoop leading trailing total rest (idx + 1) spans
    else if s = 0 ∧ e = 0 then
      0 :: alignLoop leading trailing total rest (idx + 1) spans
    else
      let p := consumeSpans s e spans
      p.1 :: alignLoop leading trailing total rest (idx + 1) p.2

/-- `align_word2ph` (`src/nlp/bert.rs` lines 335-398).  The source bails
when `word2ph` is empty, when the offsets are empty, when a character
index reaches past `word2ph` (line 352-354) or when
`word2ph.len() ≠ chars + 2` (lines 358-360); the two last conditions
together are exactly `word2ph.len() ≠ text.chars + 2`. -/
def alignWord2ph (text : List Char) (w : List Nat)
    (offsets : List (Nat × Nat)) : Option (List Nat) :=
  if w.isEmpty then none
  else if offsets.isEmpty then none
  else if w.length ≠ text.length + 2 then none
  else
    let counts := (w.drop 1).take text.length
    let spans := mkSpans text 0 counts
    some (alignLoop (w.headD 0) (w.getLast?.getD 0) offsets.length offsets 0 spans)

/-- Sum of the counts carried by a span list. -/
def spanSum (spans : List (Nat × Nat × Nat)) : Nat :=
  (spans.map (fun x => x.2.2)).sum

theorem consumeSpans_bound (s e : Nat) (spans : List (Nat × Nat × Nat)) :
    (consumeSpans s e spans).1 + spanSum (consumeSpans s e spans).2 ≤
      spanSum spans := by
  induction spans with
  | nil => simp [consumeSpans, spanSum]
  | cons hd rest ih =>
    obtain ⟨cs, ce, cnt⟩ := hd
    rw [consumeSpans]
    split_ifs with h1 h2
    · calc (consumeSpans s e rest).1 + spanSum (consumeSpans s e rest).2
          ≤ spanSum rest := ih
        _ ≤ spanSum ((cs, ce, cnt) :: rest) := by
          simp [spanSum]
    · simp
    · dsimp only
      have := ih
      simp only [spanSum, List.map_cons, List.sum_cons] at *
      omega

theorem alignLoop_length (leading trailing total : Nat)
    (offs : List (Nat × Nat)) (idx : Nat) (spans : List (Nat × Nat × Nat)) :
    (alignLoop leading trailing total offs idx spans).length = offs.length := by
  induction offs generalizing idx spans with
  | nil => simp [alignLoop]
  | cons p rest ih =>
    obtain ⟨s, e⟩ := p
    rw [alignLoop]
    split_ifs <;> simp [ih]

/-- Past the last-token index, the loop only consumes spans. -/
theorem alignLoop_sum_le_of_past (leading trailing total : Nat)
    (offs : List (Nat × Nat)) (idx : Nat) (spans : List (Nat × Nat × Nat))
    (hidx : total - 1 < idx) :
    (alignLoop leading trailing total offs idx spans).sum ≤ spanSum spans := by
  induction offs generalizing idx spans with
  | nil => simp [alignLoop]
  | cons p rest ih =>
    obtain ⟨s, e⟩ := p
    rw [alignLoop]
    split_ifs with h0 hlast hzero
    · omega
    · omega
    · simpa using ih (idx + 1) spans (by omega)
    · dsimp only
      simp only [List.sum_cons]
      have hc := consumeSpans_bound s e spans
      have hr := ih (idx + 1) (consumeSpans s e spans).2 (by omega)
      omega

/-- From any mid-token position the loop pays out the trailing sentinel
at most once plus the remaining span counts. -/
theorem alignLoop_sum_le_of_mid (leading trailing total : Nat)
    (offs : List (Nat × Nat)) (idx : Nat) (spans : List (Nat × Nat × Nat))
    (hidx : 1 ≤ idx) :
    (alignLoop leading trailing total offs idx spans).sum ≤
      trailing + spanSum spans := by
  induction offs generalizing idx spans with
  | nil => simp [alignLoop]
  | cons p rest ih =>
    obtain ⟨s, e⟩ := p
    rw [alignLoop]
    split_ifs with h0 hlast hzero
    · omega
    · simp only [List.sum_cons]
      have hr := alignLoop_sum_le_of_past leading trailing total rest
        (idx + 1) spans (by omega)
      omega
    · simpa using ih (idx + 1) spans (by omega)
    · dsimp only
      simp only [List.sum_cons]
      have hc := consumeSpans_bound s e spans
      have hr := ih (idx + 1) (consumeSpans s e spans).2 (by omega)
      omega

theorem alignLoop_sum_le (leading trailing total : Nat)
    (offs : List (Nat × Nat)) (spans : List (Nat × Nat × Nat)) :
    (alignLoop leading trailing total offs 0 spans).sum ≤
      leading + trailing + spanSum spans := by
  cases offs with
  | nil => simp [alignLoop]
  | cons p rest =>
    obtain ⟨s, e⟩ := p
    rw [alignLoop]
    rw [if_pos rfl]
    simp only [List.sum_cons]
    have := alignLoop_sum_le_of_mid leading trailing total rest (0 + 1) spans
      (by omega)
    omega

theorem mkSpans_spanSum (text : List Char) (b : Nat) (counts : List Nat)
    (h : counts.length = text.length) :
    spanSum (mkSpans text b counts) = counts.sum := by
  induction text generalizing b counts with
  | nil =>
    have : counts = [] := List.eq_nil_of_length_eq_zero (by simpa using h)
    simp [this, mkSpans, spanSum]
  | cons c cs ih =>
    cases counts with
    | nil => simp at h
    | cons v vs =>
      simp only [mkSpans, spanSum, List.map_cons, List.sum_cons,
        List.headD_cons, List.tail_cons]
      rw [← spanSum]
      rw [ih (b + c.utf8Size) vs (by simpa using h)]

theorem take_sum_getLast (t : List Nat) (n : Nat) (h : t.length = n + 1) :
    (t.take n).sum + t.getLast?.getD 0 = t.sum := by
  induction t generalizing n with
  | nil => simp at h
  | cons a rest ih =>
    cases rest with
    | nil =>
      have hn : n = 0 := by simpa using h
      subst hn
      simp
    | cons b rs =>
      cases n with
      | zero => simp at h
      | succ m =>
        have hh : (b :: rs).length = m + 1 := by simpa using h
        have hrec := ih m hh
        simp only [List.sum_cons] at hrec
        simp only [List.take_succ_cons, List.sum_cons]
        rw [List.getLast?_cons_cons]
        omega

/-- **C2 (amended).** For every text, `word2ph` of length
`char_count + 2` and token offsets that are non-empty, `align_word2ph`
succeeds and returns a vector whose length equals the number of tokens
and whose sum is AT MOST the sum of the input `word2ph` (each character
span is consumed at most once; spans skipped by the advancing cursor are
dropped, so equality can fail — see the counterexample). -/
theorem c2_align_sum_le (text : List Char) (w : List Nat)
    (offsets : List (Nat × Nat)) (hw : w.length = text.length + 2)
    (ho : offsets ≠ []) :
    ∃ r, alignWord2ph text w offsets = some r ∧
      r.length = offsets.length ∧ r.sum ≤ w.sum := by
  have hwne : ¬w.isEmpty = true := by
    cases w with
    | nil => simp at hw
    | cons a t => simp
  have hone : ¬offsets.isEmpty = true := by simpa using ho
  unfold alignWord2ph
  rw [if_neg hwne, if_neg hone, if_neg (by omega)]
  refine ⟨_, rfl, alignLoop_length _ _ _ _ _ _, ?_⟩
  have hclen : ((w.drop 1).take text.length).length = text.length := by
    simp
    omega
  have hspan := mkSpans_spanSum text 0 ((w.drop 1).take text.length) hclen
  have hle := alignLoop_sum_le (w.headD 0) (w.getLast?.getD 0) offsets.length
    offsets (mkSpans text 0 ((w.drop 1).take text.length))
  rw [hspan] at hle
  cases w with
  | nil => simp at hw
  | cons a t =>
    have ht : t.length = text.length + 1 := by simpa using hw
    have hdec := take_sum_getLast t text.length ht
    cases t with
    | nil => simp at ht
    | cons b rs =>
      simp only [List.headD_cons, List.drop_succ_cons, List.drop_zero,
        List.sum_cons, List.getLast?_cons_cons] at hle hdec ⊢
      omega

theorem c2_witness :
    ((['a'] : List Char).length + 2 = ([1, 2, 1] : List Nat).length ∧
     ([(0, 0), (0, 1), (0, 0)] : List (Nat × Nat)) ≠ []) ∧
    ∃ r, alignWord2ph ['a'] [1, 2, 1] [(0, 0), (0, 1), (0, 0)] = some r ∧
      r.length = 3 ∧ r.sum ≤ 4 :=
  ⟨⟨by decide, by decide⟩,
    c2_align_sum_le ['a'] [1, 2, 1] [(0, 0), (0, 1), (0, 0)] (by decide)
      (by decide)⟩

/-- **C2 counterexample.** The claim as stated — the returned sum always
EQUALS the input sum — is false: for the text `"a b"` with
`word2ph = [1,1,1,1,1]` and the token offsets
`[(0,0), (0,1), (2,3), (0,0)]` (CLS, `a`, `b`, SEP), the whitespace
character span `(1,2)` is skipped by the cursor without being counted,
so the aligned vector `[1,1,1,1]` sums to 4 while the input sums to 5. -/
theorem c2_counterexample :
    alignWord2ph ['a', ' ', 'b'] [1, 1, 1, 1, 1]
        [(0, 0), (0, 1), (2, 3), (0, 0)] = some [1, 1, 1, 1] ∧
    ([1, 1, 1, 1] : List Nat).sum ≠ ([1, 1, 1, 1, 1] : List Nat).sum := by
  constructor
  · rfl
  · decide

/-! ### `src/nlp/chinese/tone_sandhi.rs` — per-word tone sandhi (claim C6)

Words are lists of `Char`, finals are `String`s carrying a trailing tone
digit.  `split_word` calls jieba's `cut_for_search`; it always returns
exactly two pieces, each a contiguous substring of the word, whose
lengths add up to the word's length.  It is abstracted below as a
function parameter constrained by exactly those facts. -/

/-- `MUST_NEUTRAL_TONE_WORDS` (`tone_sandhi.rs` lines 25-68). -/
def MUST_NEUTRAL_TONE_WORDS : List String := [
  "麻烦", "麻利", "鸳鸯", "高粱", "骨头", "骆驼", "马虎", "首饰",
  "馒头", "馄饨", "风筝", "难为", "队伍", "阔气", "闺女", "门道",
  "锄头", "铺盖", "铃铛", "铁匠", "钥匙", "里脊", "里头", "部分",
  "那么", "道士", "造化", "迷糊", "连累", "这么", "这个", "运气",
  "过去", "软和", "转悠", "踏实", "跳蚤", "跟头", "趔趄", "财主",
  "豆腐", "讲究", "记性", "记号", "认识", "规矩", "见识", "裁缝",
  "补丁", "衣裳", "衣服", "衙门", "街坊", "行李", "行当", "蛤蟆",
  "蘑菇", "薄荷", "葫芦", "葡萄", "萝卜", "荸荠", "苗条", "苗头",
  "苍蝇", "芝麻", "舒服", "舒坦", "舌头", "自在", "膏药", "脾气",
  "脑袋", "脊梁", "能耐", "胳膊", "胭脂", "胡萝", "胡琴", "胡同",
  "聪明", "耽误", "耽搁", "耷拉", "耳朵", "老爷", "老实", "老婆",
  "老头", "老太", "翻腾", "罗嗦", "罐头", "编辑", "结实", "红火",
  "累赘", "糨糊", "糊涂", "精神", "粮食", "簸箕", "篱笆", "算计",
  "算盘", "答应", "笤帚", "笑语", "笑话", "窟窿", "窝囊", "窗户",
  "稳当", "稀罕", "称呼", "秧歌", "秀气", "秀才", "福气", "祖宗",
  "砚台", "码头", "石榴", "石头", "石匠", "知识", "眼睛", "眯缝",
  "眨巴", "眉毛", "相声", "盘算", "白净", "痢疾", "痛快", "疟疾",
  "疙瘩", "疏忽", "畜生", "生意", "甘蔗", "琵琶", "琢磨", "琉璃",
  "玻璃", "玫瑰", "玄乎", "狐狸", "状元", "特务", "牲口", "牙碜",
  "牌楼", "爽快", "爱人", "热闹", "烧饼", "烟筒", "烂糊", "点心",
  "炊帚", "灯笼", "火候", "漂亮", "滑溜", "溜达", "温和", "清楚",
  "消息", "浪头", "活泼", "比方", "正经", "欺负", "模糊", "槟榔",
  "棺材", "棒槌", "棉花", "核桃", "栅栏", "柴火", "架势", "枕头",
  "枇杷", "机灵", "本事", "木头", "木匠", "朋友", "月饼", "月亮",
  "暖和", "明白", "时候", "新鲜", "故事", "收拾", "收成", "提防",
  "挖苦", "挑剔", "指甲", "指头", "拾掇", "拳头", "拨弄", "招牌",
  "招呼", "抬举", "护士", "折腾", "扫帚", "打量", "打算", "打点",
  "打扮", "打听", "打发", "扎实", "扁担", "戒指", "懒得", "意识",
  "意思", "情形", "悟性", "怪物", "思量", "怎么", "念头", "念叨",
  "快活", "忙活", "志气", "心思", "得罪", "张罗", "弟兄", "开通",
  "应酬", "庄稼", "干事", "帮手", "帐篷", "希罕", "师父", "师傅",
  "巴结", "巴掌", "差事", "工夫", "岁数", "屁股", "尾巴", "少爷",
  "小气", "小伙", "将就", "对头", "对付", "寡妇", "家伙", "客气",
  "实在", "官司", "学问", "学生", "字号", "嫁妆", "媳妇", "媒人",
  "婆家", "娘家", "委屈", "姑娘", "姐夫", "妯娌", "妥当", "妖精",
  "奴才", "女婿", "头发", "太阳", "大爷", "大方", "大意", "大夫",
  "多少", "多么", "外甥", "壮实", "地道", "地方", "在乎", "困难",
  "嘴巴", "嘱咐", "嘟囔", "嘀咕", "喜欢", "喇嘛", "喇叭", "商量",
  "唾沫", "哑巴", "哈欠", "哆嗦", "咳嗽", "和尚", "告诉", "告示",
  "含糊", "吓唬", "后头", "名字", "名堂", "合同", "吆喝", "叫唤",
  "口袋", "厚道", "厉害", "千斤", "包袱", "包涵", "匀称", "勤快",
  "动静", "动弹", "功夫", "力气", "前头", "刺猬", "刺激", "别扭",
  "利落", "利索", "利害", "分析", "出息", "凑合", "凉快", "冷战",
  "冤枉", "冒失", "养活", "关系", "先生", "兄弟", "便宜", "使唤",
  "佩服", "作坊", "体面", "位置", "似的", "伙计", "休息", "什么",
  "人家", "亲戚", "亲家", "交情", "云彩", "事情", "买卖", "主意",
  "丫头", "丧气", "两口", "东西", "东家", "世故", "不由", "不在",
  "下水", "下巴", "上头", "上司", "丈夫", "丈人", "一辈", "那个",
  "菩萨", "父亲", "母亲", "咕噜", "邋遢", "费用", "冤家", "甜头",
  "介绍", "荒唐", "大人", "泥鳅", "幸福", "熟悉", "计划", "扑腾",
  "蜡烛", "姥爷", "照顾", "喉咙", "吉他", "弄堂", "蚂蚱", "凤凰",
  "拖沓", "寒碜", "糟蹋", "倒腾", "报复", "逻辑", "盘缠", "喽啰",
  "牢骚", "咖喱", "扫把", "惦记"]

/-- `MUST_NOT_NEUTRAL_TONE_WORDS` (lines 71-76). -/
def MUST_NOT_NEUTRAL_TONE_WORDS : List String := [
  "男子", "女子", "分子", "原子", "量子", "莲子", "石子", "瓜子",
  "电子", "人人", "虎虎"]

/-- `PUNC` (line 79). -/
def sandhiPunc : List Char :=
  ['：', '，', '；', '。', '？', '！', '“', '”', '‘', '’', '\'', ':', ',', ';',
   '.', '?', '!']

/-- `ToneSandhi::tone_of` (lines 582-584): the last character of a final,
`'5'` when empty. -/
def toneOf (s : String) : Char := s.toList.getLast?.getD '5'

/-- `ToneSandhi::set_tone` (lines 586-596): replace a trailing digit, or
append the tone when there is none. -/
def setTone (s : String) (t : Char) : String :=
  match s.toList.getLast? with
  | some c =>
    if c.isDigit then String.mk (s.toList.dropLast ++ [t]) else s.push t
  | none => s.push t

/-- `finals.get_mut(i)` followed by `set_tone`: update index `i` when it
exists. -/
def setToneAt (finals : List String) (i : Nat) (t : Char) : List String :=
  match finals[i]? with
  | some f => finals.set i (setTone f t)
  | none => finals

/-- `finals.last_mut()` followed by `set_tone`. -/
def setLastTone (finals : List String) (t : Char) : List String :=
  match finals.getLast? with
  | some f => finals.set (finals.length - 1) (setTone f t)
  | none => finals

/-- `ToneSandhi::all_tone_three` (lines 392-394). -/
def allToneThree (finals : List String) : Bool :=
  finals.all (fun x => toneOf x = '3')

/-- `ToneSandhi::bu_sandhi` (lines 222-245): in a three-character word
with `不` in the middle, `不` goes neutral; otherwise every `不` followed
by a tone-4 final becomes tone 2. -/
def buSandhi (word : List Char) (finals : List String) : List String :=
  if word.length = 3 ∧ word[1]? = some '不' then setToneAt finals 1 '5'
  else
    (List.range word.length).foldl (fun fs i =>
      if word[i]? = some '不' ∧ i + 1 < word.length then
        match fs[i + 1]? with
        | some next => if toneOf next = '4' then setToneAt fs i '2' else fs
        | none => fs
      else fs) finals

/-- `ToneSandhi::yi_sandhi` (lines 247-298). -/
def yiSandhi (word : List Char) (finals : List String) : List String :=
  if word.contains '一' ∧ (word.filter (· ≠ '一')).all Char.isDigit then
    finals
  else if word.length = 3 ∧ word[1]? = some '一' ∧ word[0]? = word[2]? then
    setToneAt finals 1 '5'
  else if word.take 2 = ['第', '一'] then
    (if 2 ≤ finals.length then setToneAt finals 1 '1' else finals)
  else
    (List.range word.length).foldl (fun fs i =>
      if word[i]? = some '一' ∧ i + 1 < word.length then
        match fs[i + 1]? with
        | some next =>
          if toneOf next = '4' then setToneAt fs i '2'
          else
            match word[i + 1]? with
            | some nc => if nc ∈ sandhiPunc then fs else setToneAt fs i '4'
            | none => fs
        | none => fs
      else fs) finals

/-- The `MUST_NEUTRAL_TONE_WORDS` check applied to a word or its trailing
two-character suffix (used twice in `neutral_sandhi`). -/
def mustNeutral (w : List Char) : Bool :=
  MUST_NEUTRAL_TONE_WORDS.contains (String.mk w) ∨
    (2 ≤ w.length ∧
      MUST_NEUTRAL_TONE_WORDS.contains (String.mk (w.drop (w.length - 2))))

/-- `ToneSandhi::neutral_sandhi` (lines 115-220), with the
`split_word` result passed in as `wl`. -/
def neutralSandhi (wl : List Char × List Char) (word : List Char)
    (pos : String) (finals : List String) : List String :=
  let len := word.length
  let wordStr := String.mk word
  let finals1 :=
    if ¬word.isEmpty ∧ ¬MUST_NOT_NEUTRAL_TONE_WORDS.contains wordStr ∧
        pos.toList.head?.any (fun c => (['n', 'v', 'a'] : List Char).contains c) then
      (List.range len).foldl (fun fs j =>
        if 1 ≤ j ∧ word[j]? = word[j - 1]? then setToneAt fs j '5' else fs)
        finals
    else finals
  let finals2 :=
    if 1 ≤ len then
      let last := (word.getLast?).getD ' '
      let condYuqici := last ∈ ['吧', '呢', '啊', '呐', '噻', '嘛', '吖', '嗨',
        '呐', '哦', '哒', '额', '滴', '哩', '哟', '喽', '啰', '耶', '喔', '诶']
      let condDe := last ∈ ['的', '地', '得']
      let condMenZi := 1 < len ∧ last ∈ ['们', '子'] ∧
        (pos = "r" ∨ pos = "n") ∧
        ¬MUST_NOT_NEUTRAL_TONE_WORDS.contains wordStr
      let condShang := 1 < len ∧ last ∈ ['上', '下', '里'] ∧
        (pos = "s" ∨ pos = "l" ∨ pos = "f")
      let condLaiqu := 1 < len ∧ last ∈ ['来', '去'] ∧
        (word[len - 2]?.getD ' ') ∈
          ['上', '下', '进', '出', '回', '过', '起', '开']
      if condYuqici ∨ condDe ∨ condMenZi ∨ condShang ∨ condLaiqu then
        setLastTone finals1 '5'
      else
        let geIdx := word.findIdx? (· = '个')
        let geCond : Bool := match geIdx with
          | some gi =>
            decide (1 ≤ gi) && ((word[gi - 1]?.getD ' ').isDigit ||
              (['几', '有', '两', '半', '多', '各', '整', '每', '做',
                '是'] : List Char).contains (word[gi - 1]?.getD ' '))
          | none => false
        if (geIdx.isSome ∧ geCond = true) ∨ word = ['个'] then
          match geIdx with
          | some gi => setToneAt finals1 gi '5'
          | none => finals1
        else if mustNeutral word then setLastTone finals1 '5'
        else finals1
    else finals1
  let firstLen := wl.1.length
  let fl0 := finals2.take firstLen
  let fl1 := finals2.drop firstLen
  let fl0' := if mustNeutral wl.1 then setLastTone fl0 '5' else fl0
  let fl1' := if mustNeutral wl.2 then setLastTone fl1 '5' else fl1
  fl0' ++ fl1'

/-- `ToneSandhi::three_sandhi` (lines 330-390), with the `split_word`
result passed in as `wl`. -/
def threeSandhi (wl : List Char × List Char) (word : List Char)
    (finals : List String) : List String :=
  let len := word.length
  if len = 2 ∧ allToneThree finals then setToneAt finals 0 '2'
  else if len = 3 then
    let firstLen := wl.1.length
    if allToneThree finals then
      if firstLen = 2 then
        (if 2 ≤ finals.length then setToneAt (setToneAt finals 0 '2') 1 '2'
         else finals)
      else if firstLen = 1 then
        (if 2 ≤ finals.length then setToneAt finals 1 '2' else finals)
      else finals
    else
      if firstLen < finals.length then
        let f0 := finals.take firstLen
        let f1 := finals.drop firstLen
        let f0' := if allToneThree f0 ∧ f0.length = 2 then setToneAt f0 0 '2'
          else f0
        let pr :=
          if allToneThree f1 ∧ f1.length = 2 then (f0', setToneAt f1 0 '2')
          else if ¬(allToneThree f1 = true) ∧ toneOf (f1.headD "") = '3' ∧
              toneOf (f0'.getLast?.getD "") = '3' then
            (setLastTone f0' '2', f1)
          else (f0', f1)
        pr.1 ++ pr.2
      else finals
  else if len = 4 then
    if finals.length = 4 then
      let first := finals.take 2
      let second := finals.drop 2
      let first' := if allToneThree first then setToneAt first 0 '2' else first
      let second' := if allToneThree second then setToneAt second 0 '2'
        else second
      first' ++ second'
    else finals
  else finals

/-- `ToneSandhi::modified_tone` (lines 95-101): bu, yi, neutral and
three-sandhi in order.  `split_word` (lines 300-328) is abstracted as
`split2`; the source calls it independently in `neutral_sandhi` and
`three_sandhi`, always getting the same (pure) result. -/
def modifiedTone (split2 : List Char → List Char × List Char)
    (word : List Char) (pos : String) (finals : List String) : List String :=
  let wl := split2 word
  threeSandhi wl word (neutralSandhi wl word pos (yiSandhi word (buSandhi word finals)))

/-- The contiguous substrings of a two-character word. -/
theorem infix_pair (a : List Char) (x y : Char) (h : a <:+: [x, y]) :
    a = [] ∨ a = [x] ∨ a = [y] ∨ a = [x, y] := by
  obtain ⟨s, t, hst⟩ := h
  rcases a with _ | ⟨u, a⟩
  · exact Or.inl rfl
  rcases a with _ | ⟨v, a⟩
  · rcases s with _ | ⟨c, s⟩
    · simp at hst
      exact Or.inr (Or.inl (by rw [hst.1]))
    · simp at hst
      obtain ⟨hc, h2⟩ := hst
      rcases s with _ | ⟨d, s⟩
      · simp at h2
        exact Or.inr (Or.inr (Or.inl (by rw [h2.1])))
      · simp at h2
  · have hlen := congrArg List.length hst
    simp at hlen
    have ha : a = [] := List.eq_nil_of_length_eq_zero (by omega)
    have hs : s = [] := List.eq_nil_of_length_eq_zero (by omega)
    subst ha hs
    simp at hst
    exact Or.inr (Or.inr (Or.inr (by rw [hst.1, hst.2.1])))

set_option maxRecDepth 16384 in
/-- **C6.** `modified_tone("不对", "v", ["u4","ui4"])` returns
`["u2","ui4"]`: the bu-sandhi pass turns `不` before a tone-4 syllable to
tone 2, and no later pass (yi, neutral, three-tone) alters the finals.
The jieba-backed `split_word` is abstracted: its two pieces are
contiguous substrings of the word with lengths summing to the word
length, and the result holds for every such splitter. -/
theorem c6_modified_tone_bu (split2 : List Char → List Char × List Char)
    (h1 : (split2 ['不', '对']).1 <:+: ['不', '对'])
    (h2 : (split2 ['不', '对']).2 <:+: ['不', '对'])
    (hlen : (split2 ['不', '对']).1.length + (split2 ['不', '对']).2.length = 2) :
    modifiedTone split2 ['不', '对'] "v" ["u4", "ui4"] = ["u2", "ui4"] := by
  have ha := infix_pair _ _ _ h1
  have hb := infix_pair _ _ _ h2
  rcases ha with ha | ha | ha | ha <;> rcases hb with hb | hb | hb | hb <;>
    rw [ha, hb] at hlen <;>
    first
    | (exact absurd hlen (by decide))
    | (have hsp : split2 ['不', '对'] =
        ((split2 ['不', '对']).1, (split2 ['不', '对']).2) := rfl
       rw [ha, hb] at hsp
       rw [modifiedTone, hsp]
       decide)

set_option maxRecDepth 16384 in
theorem c6_witness :
    ((fun (w : List Char) => (w, ([] : List Char))) ['不', '对']).1 <:+:
        ['不', '对'] ∧
    ((fun (w : List Char) => (w, ([] : List Char))) ['不', '对']).2 <:+:
        ['不', '对'] ∧
    modifiedTone (fun w => (w, [])) ['不', '对'] "v" ["u4", "ui4"]
      = ["u2", "ui4"] :=
  ⟨by decide, by decide,
    c6_modified_tone_bu (fun w => (w, [])) (by decide) (by decide) (by decide)⟩

/-! ### `src/nlp/english/mod.rs` — English fallback G2P (claim C8)

The CMU dictionary is a startup-loaded resource file; it is abstracted
as a lookup function `dict` and every result below holds for all
dictionaries.  The per-token memoization cache is semantically the
identity and is not modelled. -/

/-- `ARPA_SET` (`english/mod.rs` lines 9-20). -/
def ARPA_SET : List String := [
  "AH0", "S", "AH1", "EY2", "AE2", "EH0", "OW2", "UH0", "NG", "B", "G",
  "AY0", "M", "AA0", "F", "AO0", "ER2", "UH1", "IY1", "AH2", "DH", "IY0",
  "EY1", "IH0", "K", "N", "W", "IY2", "T", "AA1", "ER1", "EH2", "OY0",
  "UH2", "UW1", "Z", "AW2", "AW1", "V", "UW2", "AA2", "ER", "AW0", "UW0",
  "R", "OW1", "EH1", "ZH", "AE0", "IH2", "IH", "Y", "JH", "P", "AY1",
  "EY0", "OY2", "TH", "HH", "D", "ER0", "CH", "AO1", "AE1", "AO2", "OY1",
  "AY2", "IH1", "OW0", "L", "SH"]

/-- `is_english_token` (lines 32-36). -/
def isEngChar (c : Char) : Bool := c.isAlphanum ∨ c = '\'' ∨ c = '-'

/-- `refine_phoneme` (lines 254-269): trim, detach a trailing tone digit
(tone = digit + 1, default 3), lowercase; phones outside `ARPA_SET` get
tone 0. -/
def refinePhoneme (p : String) : String × Int :=
  let base := rustTrim p.toList
  let bt : List Char × Int :=
    match base.getLast? with
    | some last =>
      if last.isDigit then (base.dropLast, (last.toNat - 48 : Int) + 1)
      else (base, 3)
    | none => (base, 3)
  let symbol := String.mk (bt.1.map Char.toLower)
  if ARPA_SET.contains p then (symbol, bt.2) else (symbol, 0)

/-- The per-letter fallback table of `fallback_alpha_segment`
(lines 164-201). -/
def letterSym (c : Char) : String :=
  match c.toLower with
  | 'a' => "ey" | 'b' => "b" | 'c' => "k" | 'd' => "d" | 'e' => "iy"
  | 'f' => "f" | 'g' => "g" | 'h' => "hh" | 'i' => "ay" | 'j' => "jh"
  | 'k' => "k" | 'l' => "l" | 'm' => "m" | 'n' => "n" | 'o' => "ow"
  | 'p' => "p" | 'q' => "k" | 'r' => "r" | 's' => "s" | 't' => "t"
  | 'u' => "uw" | 'v' => "v" | 'w' => "w" | 'x' => "k" | 'y' => "y"
  | 'z' => "z" | _ => "unk"

/-- `fallback_alpha_segment` (lines 164-201): one phone per letter,
all tones 0. -/
def fallbackAlphaSegment (seg : List Char) : List String × List Int :=
  (seg.map letterSym, seg.map (fun _ => 0))

/-- The CMU-dictionary path of `g2p_alpha_segment` (lines 133-146):
uppercase lookup; syllables are flattened and refined in order. -/
def cmuPhones (dict : String → Option (List (List String)))
    (seg : List Char) : List String × List Int :=
  match dict (String.mk (seg.map Char.toUpper)) with
  | some entries =>
    let pairs := entries.flatten.map refinePhoneme
    (pairs.map Prod.fst, pairs.map Prod.snd)
  | none => ([], [])

/-- `g2p_alpha_segment` on a single character: the acronym branch cannot
recurse further (`len > 1` fails), so the recursion bottoms out here. -/
def alphaSingle (dict : String → Option (List (List String))) (c : Char) :
    List String × List Int :=
  let r := cmuPhones dict [c]
  if r.1 ≠ [] then r else fallbackAlphaSegment [c]

/-- `g2p_alpha_segment` (lines 132-162): CMU lookup, then the
all-uppercase acronym spell-out (which recurses only on single letters),
then the per-letter fallback. -/
def g2pAlphaSegment (dict : String → Option (List (List String)))
    (seg : List Char) : List String × List Int :=
  let r := cmuPhones dict seg
  if r.1 ≠ [] then r
  else if seg.all Char.isUpper ∧ 1 < seg.length then
    let rs := seg.map (alphaSingle dict)
    let phones := (rs.map Prod.fst).flatten
    let tones := (rs.map Prod.snd).flatten
    if phones ≠ [] then (phones, tones) else fallbackAlphaSegment seg
  else fallbackAlphaSegment seg

/-- Index of the first minimal element (Rust's `min_by_key` keeps the
first minimum). -/
def argminIdx (l : List Nat) : Nat :=
  (List.range l.length).foldl
    (fun best i => if l.getD i 0 < l.getD best 0 then i else best) 0

/-- One iteration of `distribute` (lines 203-218): increment the first
smallest slot. -/
def distStep (l : List Nat) : List Nat :=
  l.set (argminIdx l) (l.getD (argminIdx l) 0 + 1)

def distIter : Nat → List Nat → List Nat
  | 0, l => l
  | n + 1, l => distIter n (distStep l)

/-- `distribute` (lines 203-218): starting from `slots` zeros, repeat
`total` times: increment the first smallest slot; zero slots return the
empty vector immediately. -/
def distribute (total slots : Nat) : List Nat :=
  if slots = 0 then List.replicate slots 0
  else distIter total (List.replicate slots 0)

/-- `digit_mapping` (lines 220-234). -/
def digitMapping (c : Char) : List String :=
  match c with
  | '0' => ["z", "iy", "r", "ow"]
  | '1' => ["w", "ah", "n"]
  | '2' => ["t", "uw"]
  | '3' => ["th", "r", "iy"]
  | '4' => ["f", "ao", "r"]
  | '5' => ["f", "ay", "v"]
  | '6' => ["s", "ih", "k", "s"]
  | '7' => ["s", "eh", "v", "ah", "n"]
  | '8' => ["ey", "t"]
  | '9' => ["n", "ay", "n"]
  | _ => ["unk"]

/-- Result record of `g2p_word` (`EnglishG2pResult`, lines 25-30). -/
structure EnglishG2pResult where
  phones : List String
  tones : List Int
  charPhoneCounts : List Nat

/-- The character-classification loop of `g2p_word` (lines 64-107):
alphabetic runs go through `g2p_alpha_segment` and `distribute`; digits,
apostrophe/hyphen, punctuation and unknown characters emit one count
each. -/
def g2pLoop (dict : String → Option (List (List String))) :
    List Char → EnglishG2pResult
  | [] => ⟨[], [], []⟩
  | c :: rest =>
    if c.isAlpha then
      let run := (c :: rest).takeWhile Char.isAlpha
      let rest1 := (c :: rest).dropWhile Char.isAlpha
      let seg := g2pAlphaSegment dict run
      let r := g2pLoop dict rest1
      ⟨seg.1 ++ r.phones, seg.2 ++ r.tones,
        distribute seg.1.length run.length ++ r.charPhoneCounts⟩
    else if c.isDigit then
      let m := digitMapping c
      let r := g2pLoop dict rest
      ⟨m ++ r.phones, List.replicate m.length 0 ++ r.tones,
        m.length :: r.charPhoneCounts⟩
    else if c = '\'' ∨ c = '-' then
      let r := g2pLoop dict rest
      ⟨String.mk [c] :: r.phones, 0 :: r.tones, 1 :: r.charPhoneCounts⟩
    else if (['!', '?', '…', ',', '.', '\'', '-'] : List Char).contains c then
      let r := g2pLoop dict rest
      ⟨String.mk [c] :: r.phones, 0 :: r.tones, 1 :: r.charPhoneCounts⟩
    else
      let r := g2pLoop dict rest
      ⟨"UNK" :: r.phones, 0 :: r.tones, 1 :: r.charPhoneCounts⟩
  termination_by l => l.length
  decreasing_by
    all_goals first
      | (simp only [List.dropWhile_cons]
         rw [if_pos (by assumption)]
         exact Nat.lt_succ_of_le ((List.dropWhile_sublist Char.isAlpha).length_le))
      | simp

/-- `g2p_word` (lines 38-130) without the memoization cache: the
trim-empty and empty special cases, the main loop, and the final
empty-phones / empty-counts fix-ups. -/
def g2pWord (dict : String → Option (List (List String)))
    (token : List Char) : EnglishG2pResult :=
  if (rustTrim token).isEmpty then ⟨[], [], [0]⟩
  else if token.isEmpty then ⟨["UNK"], [0], [1]⟩
  else
    let r := g2pLoop dict token
    let pt : List String × List Int :=
      if r.phones.isEmpty then (["UNK"], r.tones ++ [0])
      else (r.phones, r.tones)
    let counts :=
      if r.charPhoneCounts.isEmpty then [pt.1.length] else r.charPhoneCounts
    ⟨pt.1, pt.2, counts⟩

theorem argmin_foldl_lt (l : List Nat) (is : List Nat) (b : Nat)
    (hb : b < l.length) (hall : ∀ i ∈ is, i < l.length) :
    is.foldl (fun best i => if l.getD i 0 < l.getD best 0 then i else best) b
      < l.length := by
  induction is generalizing b with
  | nil => exact hb
  | cons j js ih =>
    simp only [List.foldl_cons]
    apply ih
    · split_ifs
      · exact hall j (by simp)
      · exact hb
    · intro i hi
      exact hall i (by simp [hi])

theorem argminIdx_lt (l : List Nat) (h : l ≠ []) : argminIdx l < l.length := by
  unfold argminIdx
  apply argmin_foldl_lt
  · cases l with
    | nil => exact absurd rfl h
    | cons x xs => simp
  · intro i hi
    simpa using hi

theorem argmin_foldl_min (l : List Nat) (is : List Nat) (b : Nat) :
    l.getD (is.foldl
        (fun best i => if l.getD i 0 < l.getD best 0 then i else best) b) 0
      ≤ l.getD b 0 ∧
    ∀ i ∈ is,
      l.getD (is.foldl
        (fun best i => if l.getD i 0 < l.getD best 0 then i else best) b) 0
      ≤ l.getD i 0 := by
  induction is generalizing b with
  | nil => exact ⟨le_refl _, by simp⟩
  | cons j js ih =>
    simp only [List.foldl_cons]
    set b' := if l.getD j 0 < l.getD b 0 then j else b with hb'
    obtain ⟨ih1, ih2⟩ := ih b'
    have hstep : l.getD b' 0 ≤ l.getD b 0 ∧ l.getD b' 0 ≤ l.getD j 0 := by
      rw [hb']
      split_ifs with hc
      · exact ⟨le_of_lt hc, le_refl _⟩
      · exact ⟨le_refl _, le_of_not_lt hc⟩
    refine ⟨le_trans ih1 hstep.1, ?_⟩
    intro i hi
    rcases List.mem_cons.mp hi with hi | hi
    · subst hi
      exact le_trans ih1 hstep.2
    · exact ih2 i hi

theorem argminIdx_min (l : List Nat) (j : Nat) (hj : j < l.length) :
    l.getD (argminIdx l) 0 ≤ l.getD j 0 := by
  unfold argminIdx
  exact (argmin_foldl_min l (List.range l.length) 0).2 j
    (List.mem_range.mpr hj)

theorem sum_set_succ (l : List Nat) (i : Nat) (h : i < l.length) :
    (l.set i (l.getD i 0 + 1)).sum = l.sum + 1 := by
  induction l generalizing i with
  | nil => simp at h
  | cons x xs ih =>
    cases i with
    | zero =>
      simp [List.getD]
      omega
    | succ j =>
      simp only [List.set_cons_succ, List.sum_cons]
      rw [show (x :: xs).getD (j + 1) 0 = xs.getD j 0 by simp [List.getD]]
      rw [ih j (by simpa using h)]
      omega

theorem distStep_length (l : List Nat) : (distStep l).length = l.length := by
  simp [distStep]

theorem distStep_sum (l : List Nat) (h : l ≠ []) :
    (distStep l).sum = l.sum + 1 :=
  sum_set_succ l (argminIdx l) (argminIdx_lt l h)

theorem distIter_length (n : Nat) (l : List Nat) :
    (distIter n l).length = l.length := by
  induction n generalizing l with
  | zero => rfl
  | succ m ih => rw [distIter, ih, distStep_length]

theorem distIter_sum (n : Nat) (l : List Nat) (h : l ≠ []) :
    (distIter n l).sum = l.sum + n := by
  induction n generalizing l with
  | zero => rfl
  | succ m ih =>
    rw [distIter, ih, distStep_sum l h]
    · omega
    · intro hc
      apply h
      have := distStep_length l
      rw [hc] at this
      exact List.eq_nil_of_length_eq_zero (by simpa using this.symm)

theorem distribute_length (total slots : Nat) :
    (distribute total slots).length = slots := by
  unfold distribute
  split_ifs with h
  · simp [h]
  · rw [distIter_length]
    simp

theorem distribute_sum (total slots : Nat) (h : 1 ≤ slots) :
    (distribute total slots).sum = total := by
  unfold distribute
  rw [if_neg (by omega)]
  rw [distIter_sum _ _ (by
    intro hc
    have := congrArg List.length hc
    simp at this
    omega)]
  simp

/-- Two-level shape invariant of `distribute`: every slot holds `m` or
`m + 1` for some `m`. -/
theorem distStep_levels (l : List Nat) (h : l ≠ [])
    (m : Nat) (hm : ∀ v ∈ l, v = m ∨ v = m + 1) :
    ∃ m', ∀ v ∈ distStep l, v = m' ∨ v = m' + 1 := by
  have hlt := argminIdx_lt l h
  have hargmem : l.getD (argminIdx l) 0 ∈ l := by
    rw [List.getD_eq_getElem l 0 hlt]
    exact List.getElem_mem hlt
  by_cases hex : m ∈ l
  · refine ⟨m, ?_⟩
    have hminm : l.getD (argminIdx l) 0 = m := by
      obtain ⟨j, hj, hjm⟩ := List.mem_iff_getElem.mp hex
      have hle := argminIdx_min l j hj
      rw [List.getD_eq_getElem l 0 hj, hjm] at hle
      rcases hm _ hargmem with hv | hv
      · exact hv
      · omega
    intro v hv
    rcases List.mem_or_eq_of_mem_set hv with hv | hv
    · exact hm v hv
    · right
      rw [hv, hminm]
  · refine ⟨m + 1, ?_⟩
    have hall : ∀ v ∈ l, v = m + 1 := by
      intro v hv
      rcases hm v hv with h1 | h1
      · exact absurd (h1 ▸ hv) hex
      · exact h1
    intro v hv
    rcases List.mem_or_eq_of_mem_set hv with hv | hv
    · exact Or.inl (hall v hv)
    · right
      rw [hv, hall _ hargmem]

theorem distIter_levels (n : Nat) (l : List Nat) (h : l ≠ [])
    (m : Nat) (hm : ∀ v ∈ l, v = m ∨ v = m + 1) :
    ∃ m', ∀ v ∈ distIter n l, v = m' ∨ v = m' + 1 := by
  induction n generalizing l m with
  | zero => exact ⟨m, hm⟩
  | succ k ih =>
    rw [distIter]
    obtain ⟨m', hm'⟩ := distStep_levels l h m hm
    apply ih _ _ m' hm'
    intro hc
    apply h
    have := distStep_length l
    rw [hc] at this
    exact List.eq_nil_of_length_eq_zero (by simpa using this.symm)

theorem distribute_even (total slots : Nat) (a b : Nat)
    (ha : a ∈ distribute total slots) (hb : b ∈ distribute total slots) :
    a ≤ b + 1 := by
  unfold distribute at ha hb
  by_cases h : slots = 0
  · rw [if_pos h] at ha
    simp [h] at ha
  · rw [if_neg h] at ha hb
    have hne : (List.replicate slots 0 : List Nat) ≠ [] := by
      intro hc
      have := congrArg List.length hc
      simp at this
      omega
    obtain ⟨m, hm⟩ := distIter_levels total (List.replicate slots 0) hne 0
      (by intro v hv; left; exact List.eq_of_mem_replicate hv)
    rcases hm a ha with h1 | h1 <;> rcases hm b hb with h2 | h2 <;> omega

theorem digitMapping_ne (c : Char) : digitMapping c ≠ [] := by
  unfold digitMapping
  split <;> simp

theorem fallbackAlphaSegment_ne (seg : List Char) (h : seg ≠ []) :
    (fallbackAlphaSegment seg).1 ≠ [] := by
  simpa [fallbackAlphaSegment] using h

theorem g2pAlphaSegment_ne (dict : String → Option (List (List String)))
    (seg : List Char) (h : seg ≠ []) :
    (g2pAlphaSegment dict seg).1 ≠ [] := by
  dsimp only [g2pAlphaSegment]
  split_ifs with hA hB hC <;>
    first
    | assumption
    | exact fallbackAlphaSegment_ne seg h

theorem g2pLoop_spec (dict : String → Option (List (List String)))
    (n : Nat) : ∀ token : List Char, token.length ≤ n →
    (g2pLoop dict token).charPhoneCounts.length = token.length ∧
    (g2pLoop dict token).charPhoneCounts.sum =
      (g2pLoop dict token).phones.length ∧
    (token ≠ [] → (g2pLoop dict token).phones ≠ []) := by
  induction n with
  | zero =>
    intro token h
    have ht : token = [] := List.eq_nil_of_length_eq_zero (by omega)
    subst ht
    rw [g2pLoop]
    exact ⟨rfl, rfl, fun hc => absurd rfl hc⟩
  | succ k ih =>
    intro token h
    cases token with
    | nil =>
      rw [g2pLoop]
      exact ⟨rfl, rfl, fun hc => absurd rfl hc⟩
    | cons c rest =>
      rw [g2pLoop]
      split_ifs with h1 h2 h3 h4
      · -- alphabetic run
        simp only [List.length_cons] at h
        have hsplit : ((c :: rest).takeWhile Char.isAlpha) ++
            ((c :: rest).dropWhile Char.isAlpha) = c :: rest :=
          List.takeWhile_append_dropWhile Char.isAlpha (c :: rest)
        have hsplitlen := congrArg List.length hsplit
        simp only [List.length_append, List.length_cons] at hsplitlen
        have hrunne : (c :: rest).takeWhile Char.isAlpha ≠ [] := by
          rw [List.takeWhile_cons_of_pos h1]
          simp
        have hrunpos : 1 ≤ ((c :: rest).takeWhile Char.isAlpha).length := by
          cases hr : (c :: rest).takeWhile Char.isAlpha with
          | nil => exact absurd hr hrunne
          | cons a b => simp
        obtain ⟨ihl, ihs, ihp⟩ := ih ((c :: rest).dropWhile Char.isAlpha)
          (by omega)
        refine ⟨?_, ?_, ?_⟩
        · simp only [List.length_append, List.length_cons, distribute_length,
            ihl]
          omega
        · simp only [List.sum_append, List.length_append,
            distribute_sum _ _ hrunpos, ihs]
        · intro _
          simp only [ne_eq, List.append_eq_nil, not_and]
          intro hc
          exact absurd hc (g2pAlphaSegment_ne dict _ hrunne)
      · -- digit
        obtain ⟨ihl, ihs, ihp⟩ := ih rest
          (by simp only [List.length_cons] at h; omega)
        refine ⟨?_, ?_, ?_⟩
        · simp [ihl]
        · simp [ihs]
        · intro _
          simp only [ne_eq, List.append_eq_nil, not_and]
          intro hc
          exact absurd hc (digitMapping_ne c)
      · obtain ⟨ihl, ihs, ihp⟩ := ih rest
          (by simp only [List.length_cons] at h; omega)
        refine ⟨?_, ?_, fun _ => by simp⟩
        · simp only [List.length_cons, ihl]
        · simp only [List.sum_cons, List.length_cons, ihs]
          omega
      · obtain ⟨ihl, ihs, ihp⟩ := ih rest
          (by simp only [List.length_cons] at h; omega)
        refine ⟨?_, ?_, fun _ => by simp⟩
        · simp only [List.length_cons, ihl]
        · simp only [List.sum_cons, List.length_cons, ihs]
          omega
      · obtain ⟨ihl, ihs, ihp⟩ := ih rest
          (by simp only [List.length_cons] at h; omega)
        refine ⟨?_, ?_, fun _ => by simp⟩
        · simp only [List.length_cons, ihl]
        · simp only [List.sum_cons, List.length_cons, ihs]
          omega

/-- **C8.** For every token over `[A-Za-z0-9'-]` whose trimmed form is
non-empty, `g2p_word` returns `char_phone_counts` of length equal to the
token's character count, summing to `phones.len()`; and the `distribute`
function used on each alphabetic run spreads the phones as evenly as
possible (repeatedly incrementing the first smallest slot): it sums to
the phone count and any two slots differ by at most 1.  Holds for every
CMU dictionary. -/
theorem c8_g2p_word (dict : String → Option (List (List String)))
    (token : List Char) (h1 : token.all isEngChar)
    (h2 : rustTrim token ≠ []) :
    ((g2pWord dict token).charPhoneCounts.length = token.length ∧
     (g2pWord dict token).charPhoneCounts.sum =
       (g2pWord dict token).phones.length) ∧
    (∀ total slots, 1 ≤ slots →
      (distribute total slots).sum = total ∧
      ∀ a ∈ distribute total slots, ∀ b ∈ distribute total slots,
        a ≤ b + 1) := by
  have htok : token ≠ [] := by
    intro hc
    subst hc
    exact h2 rfl
  obtain ⟨hl, hs, hp⟩ := g2pLoop_spec dict token.length token le_rfl
  have hpne := hp htok
  constructor
  · unfold g2pWord
    rw [if_neg (by simpa using h2), if_neg (by simpa using htok)]
    dsimp only
    have hcne : (g2pLoop dict token).charPhoneCounts ≠ [] := by
      intro hc
      have hlen0 := congrArg List.length hc
      rw [hl] at hlen0
      simp at hlen0
      exact htok hlen0
    rw [if_neg (by simpa using hcne)]
    rw [if_neg (by simpa using hpne)]
    exact ⟨hl, hs⟩
  · intro total slots hslots
    exact ⟨distribute_sum total slots hslots,
      fun a ha b hb => distribute_even total slots a b ha hb⟩

theorem c8_witness :
    ((['a', '1'] : List Char).all isEngChar ∧ rustTrim ['a', '1'] ≠ []) ∧
    ((g2pWord (fun _ => none) ['a', '1']).charPhoneCounts.length = 2 ∧
     (g2pWord (fun _ => none) ['a', '1']).charPhoneCounts.sum =
       (g2pWord (fun _ => none) ['a', '1']).phones.length) :=
  ⟨⟨by decide, by decide⟩,
    (c8_g2p_word (fun _ => none) ['a', '1'] (by decide) (by decide)).1⟩

/-! ### `src/nlp/chinese/cn2an.rs` and `normalizer.rs` — text
normalization (claim C7)

The regex `\d+(?:\.\d+)?` is modelled as a left-to-right scan taking
maximal digit runs with an optional fractional part (the regex crate
finds leftmost matches with a greedy `\d+`).  Digits are modelled as the
ASCII digit class (`char::to_digit`/`i128` parsing in the source only
accept ASCII digits; rationale as in the surrounding comments). -/

/-- `i128::MAX`: `parse::<i128>` on an unsigned digit string fails
exactly when the value exceeds it. -/
def I128MAX : Nat := 170141183460564231731687303715884105727

def natOfDigits (l : List Char) : Nat :=
  l.foldl (fun a c => a * 10 + (c.toNat - 48)) 0

/-- `int_part.parse::<i128>()` on a run of digits: succeeds (with the
numeric value, leading zeros allowed) unless the value overflows. -/
def parseI128 (l : List Char) : Option Nat :=
  if l ≠ [] ∧ l.all Char.isDigit ∧ natOfDigits l ≤ I128MAX then
    some (natOfDigits l)
  else none

/-- `DIGITS` (`cn2an.rs` line 7). -/
def HANZI_DIGITS : List Char :=
  ['零', '一', '二', '三', '四', '五', '六', '七', '八', '九']

/-- `UNITS` (line 8). -/
def CN_UNITS : List (List Char) := [[], ['十'], ['百'], ['千']]

/-- `SECTION_UNITS` (line 9). -/
def CN_SECTION_UNITS : List (List Char) :=
  [[], ['万'], ['亿'], ['兆'], ['京']]

/-- The digit loop of `convert_section` (`cn2an.rs` lines 92-115):
prepend `digit ++ unit` chunks, collapsing internal zeros to a single
`零`. -/
def convertSectionGo (sec unitPos : Nat) (zero : Bool)
    (words : List Char) : List Char :=
  if sec = 0 then words
  else
    let digit := sec % 10
    if digit = 0 then
      if zero then convertSectionGo (sec / 10) (unitPos + 1) true words
      else convertSectionGo (sec / 10) (unitPos + 1) true ('零' :: words)
    else
      convertSectionGo (sec / 10) (unitPos + 1) false
        ((HANZI_DIGITS.getD digit '零' :: CN_UNITS.getD unitPos []) ++ words)
  termination_by sec
  decreasing_by all_goals exact Nat.div_lt_self (by omega) (by omega)

/-- `trim_end_matches('零')`. -/
def trimEndZeros (l : List Char) : List Char :=
  (l.reverse.dropWhile (· = '零')).reverse

/-- `convert_section` (lines 92-115). -/
def convertSection (s : Nat) : List Char :=
  trimEndZeros (convertSectionGo s 0 true [])

/-- The section loop of `convert_integer` (lines 63-83): groups of four
decimal digits with section units, inserting `零` between sections when
needed.  (`value` is non-negative here: the regex match is unsigned, so
the negative branch of the source is unreachable.) -/
def convGo (value sectionIdx : Nat) (needZero : Bool) (result : List Char) :
    List Char :=
  if value = 0 then result
  else
    let sec := value % 10000
    if sec ≠ 0 then
      let sectionStr := convertSection sec
      let result1 :=
        if needZero ∧ result.head? ≠ some '零' then '零' :: result else result
      let unit := CN_SECTION_UNITS.getD sectionIdx []
      convGo (value / 10000) (sectionIdx + 1)
        (decide (sec < 1000) && decide (10000 ≤ value))
        ((sectionStr ++ unit) ++ result1)
    else
      convGo (value / 10000) (sectionIdx + 1)
        (if result ≠ [] then true else needZero) result
  termination_by value
  decreasing_by all_goals exact Nat.div_lt_self (by omega) (by omega)

/-- `convert_integer` (lines 50-90).  The final rewrite
`replacen("一十", "十", 1)` is guarded by `starts_with("一十") &&
len() > 2`; the byte length of a string starting with `一十` is at least
6, so the length guard is vacuous and the rewrite drops the leading
`一`. -/
def convertInteger (value : Nat) : List Char :=
  if value = 0 then ['零']
  else
    let r := convGo value 0 false []
    if r.take 2 = ['一', '十'] then r.drop 1 else r

/-- `ch.to_digit(10)` mapping of fractional digits (`cn2an.rs` lines
37-43): digits become their hanzi, everything else passes through. -/
def digitToHanzi (c : Char) : Char :=
  if c.isDigit then HANZI_DIGITS.getD (c.toNat - 48) c else c

/-- `an2cn` (lines 17-48) on a split match: the whole match is `"0"`
exactly when the integer part is `"0"` and there is no fractional part;
otherwise convert the integer part (falling back to the raw digits when
`i128` parsing overflows) and spell out fractional digits after `点`. -/
def an2cn (intPart : List Char) (frac : Option (List Char)) : List Char :=
  if intPart = ['0'] ∧ frac = none then ['零']
  else
    let intRes :=
      match parseI128 intPart with
      | some n => convertInteger n
      | none => intPart
    match frac with
    | some f =>
      if f ≠ [] then intRes ++ '点' :: f.map digitToHanzi else intRes
    | none => intRes

/-- `replace_numbers` (`cn2an.rs` lines 11-15): leftmost-greedy scan for
`\d+(?:\.\d+)?`, replacing each match by `an2cn`: take the maximal digit
run; when a dot immediately followed by a digit comes next, the
following digit run is the fractional part of the same match. -/
def replaceNumbers : List Char → List Char
  | [] => []
  | c :: rest =>
    if c.isDigit then
      let run := (c :: rest).takeWhile Char.isDigit
      let rest1 := (c :: rest).dropWhile Char.isDigit
      if rest1.head? = some '.' then
        if rest1.tail.takeWhile Char.isDigit ≠ [] then
          an2cn run (some (rest1.tail.takeWhile Char.isDigit)) ++
            replaceNumbers (rest1.tail.dropWhile Char.isDigit)
        else an2cn run none ++ replaceNumbers rest1
      else an2cn run none ++ replaceNumbers rest1
    else c :: replaceNumbers rest
  termination_by l => l.length
  decreasing_by
    · have h1 : ((c :: rest).dropWhile Char.isDigit).length ≤ rest.length := by
        simp only [List.dropWhile_cons]
        rw [if_pos (by assumption)]
        exact (List.dropWhile_sublist Char.isDigit).length_le
      have h2 := List.length_tail ((c :: rest).dropWhile Char.isDigit)
      have h3 : (((c :: rest).dropWhile Char.isDigit).tail.dropWhile
          Char.isDigit).length ≤
          ((c :: rest).dropWhile Char.isDigit).tail.length :=
        (List.dropWhile_sublist Char.isDigit).length_le
      simp only [List.length_cons]
      omega
    · have h1 : ((c :: rest).dropWhile Char.isDigit).length ≤ rest.length := by
        simp only [List.dropWhile_cons]
        rw [if_pos (by assumption)]
        exact (List.dropWhile_sublist Char.isDigit).length_le
      simp only [List.length_cons]
      omega
    · have h1 : ((c :: rest).dropWhile Char.isDigit).length ≤ rest.length := by
        simp only [List.dropWhile_cons]
        rw [if_pos (by assumption)]
        exact (List.dropWhile_sublist Char.isDigit).length_le
      simp only [List.length_cons]
      omega
    · simp

/-- The single-character entries of `REPLACE_MAP`
(`normalizer.rs` lines 8-42).  Every key except `"..."` is one
character; no key is a prefix of another, so the alternation order of
`REPLACE_PATTERN` only matters for `"..."`, which is sorted first
(longest escaped form). -/
def replaceMapChar (c : Char) : Option (List Char) :=
  match c with
  | '：' => some [','] | '；' => some [','] | '，' => some [',']
  | '·' => some [','] | '、' => some [',']
  | '。' => some ['.'] | '\n' => some ['.'] | '$' => some ['.']
  | '！' => some ['!']
  | '？' => some ['?']
  | '“' => some ['\''] | '”' => some ['\''] | '"' => some ['\'']
  | '‘' => some ['\''] | '’' => some ['\'']
  | '（' => some ['\''] | '）' => some ['\''] | '(' => some ['\'']
  | ')' => some ['\'']
  | '《' => some ['\''] | '》' => some ['\''] | '【' => some ['\'']
  | '】' => some ['\''] | '[' => some ['\''] | ']' => some ['\'']
  | '「' => some ['\''] | '」' => some ['\'']
  | '—' => some ['-'] | '～' => some ['-'] | '~' => some ['-']
  | _ => none

/-- `REPLACE_PATTERN.replace_all` (`normalizer.rs` lines 44-49 and
66-71): left-to-right scan; at each position first try the three-dot
key `"..."` (mapped to `…`), then the single-character keys. -/
def replaceScan : List Char → List Char
  | '.' :: '.' :: '.' :: rest => '…' :: replaceScan rest
  | c :: rest => (replaceMapChar c).getD [c] ++ replaceScan rest
  | [] => []

/-- The `嗯 → 恩` and `呣 → 母` rewrites (line 72). -/
def hanziFix (c : Char) : Char :=
  if c = '嗯' then '恩' else if c = '呣' then '母' else c

/-- The character class kept by `NON_CHINESE_PATTERN`
(lines 51-58): CJK ideographs `一-龥`, ASCII letters and
digits, `\s` (Unicode white space) and the `PUNCTUATIONS`. -/
def isAllowedChar (c : Char) : Bool :=
  (0x4e00 ≤ c.toNat ∧ c.toNat ≤ 0x9fa5) ∨ c.isAlpha ∨ c.isDigit ∨
    isRustWhitespace c ∨
    (['!', '?', '…', ',', '.', '\'', '-'] : List Char).contains c

/-- `replace_punctuation` (`normalizer.rs` lines 65-74). -/
def replacePunctuation (l : List Char) : List Char :=
  ((replaceScan l).map hanziFix).filter isAllowedChar

/-- `normalize_text` (`normalizer.rs` lines 60-63). -/
def normalizeText (l : List Char) : List Char :=
  replacePunctuation (replaceNumbers l)

theorem replaceNumbers_nil : replaceNumbers [] = [] := by
  rw [replaceNumbers]

theorem replaceNumbers_cons_nondigit (c : Char) (rest : List Char)
    (h : c.isDigit = false) :
    replaceNumbers (c :: rest) = c :: replaceNumbers rest := by
  rw [replaceNumbers]
  rw [if_neg (by simp [h])]

theorem replaceNumbers_append_nondigit (p l : List Char)
    (h : ∀ c ∈ p, c.isDigit = false) :
    replaceNumbers (p ++ l) = p ++ replaceNumbers l := by
  induction p with
  | nil => simp
  | cons c cs ih =>
    rw [List.cons_append, replaceNumbers_cons_nondigit c _ (h c (by simp))]
    rw [ih (fun x hx => h x (by simp [hx]))]
    simp

/-- **C7 counterexample.** `normalize_text` is NOT idempotent: three
newlines are each rewritten to `.` by the first pass, producing `"..."`,
which a second pass collapses to `…` (the `"..."` key of
`REPLACE_MAP`). -/
theorem c7_counterexample :
    normalizeText (normalizeText ['\n', '\n', '\n']) ≠
      normalizeText ['\n', '\n', '\n'] := by
  have h1 : replaceNumbers ['\n', '\n', '\n'] = ['\n', '\n', '\n'] := by
    rw [replaceNumbers_cons_nondigit _ _ (by decide),
        replaceNumbers_cons_nondigit _ _ (by decide),
        replaceNumbers_cons_nondigit _ _ (by decide), replaceNumbers_nil]
  have e1 : normalizeText ['\n', '\n', '\n'] = ['.', '.', '.'] := by
    unfold normalizeText
    rw [h1]
    decide
  have h2 : replaceNumbers ['.', '.', '.'] = ['.', '.', '.'] := by
    rw [replaceNumbers_cons_nondigit _ _ (by decide),
        replaceNumbers_cons_nondigit _ _ (by decide),
        replaceNumbers_cons_nondigit _ _ (by decide), replaceNumbers_nil]
  have e2 : normalizeText ['.', '.', '.'] = ['…'] := by
    unfold normalizeText
    rw [h2]
    decide
  rw [e1, e2]
  decide

/-- No ASCII digit occurs in the list. -/
def NoDigit (l : List Char) : Prop := ∀ c ∈ l, c.isDigit = false

theorem hanzi_getD_not_digit (d : Nat) :
    (HANZI_DIGITS.getD d '零').isDigit = false := by
  by_cases hd : d < HANZI_DIGITS.length
  · simp only [HANZI_DIGITS, List.length_cons, List.length_nil] at hd
    interval_cases d <;> decide
  · rw [List.getD_eq_default _ _ (by omega)]
    decide

theorem cn_units_nodigit (u : Nat) : NoDigit (CN_UNITS.getD u []) := by
  by_cases hu : u < CN_UNITS.length
  · simp only [CN_UNITS, List.length_cons, List.length_nil] at hu
    interval_cases u <;> (unfold NoDigit; decide)
  · rw [List.getD_eq_default _ _ (by omega)]
    intro c hc
    simp at hc

theorem cn_section_units_nodigit (u : Nat) :
    NoDigit (CN_SECTION_UNITS.getD u []) := by
  by_cases hu : u < CN_SECTION_UNITS.length
  · simp only [CN_SECTION_UNITS, List.length_cons, List.length_nil] at hu
    interval_cases u <;> (unfold NoDigit; decide)
  · rw [List.getD_eq_default _ _ (by omega)]
    intro c hc
    simp at hc

theorem convertSectionGo_nodigit (sec : Nat) :
    ∀ (u : Nat) (z : Bool) (w : List Char), NoDigit w →
      NoDigit (convertSectionGo sec u z w) := by
  induction sec using Nat.strong_induction_on with
  | _ sec ih =>
    intro u z w hw
    rw [convertSectionGo]
    dsimp only
    split_ifs with h0 hd hz
    · exact hw
    · exact ih _ (Nat.div_lt_self (by omega) (by omega)) _ _ _ hw
    · apply ih _ (Nat.div_lt_self (by omega) (by omega))
      intro c hc
      rcases List.mem_cons.mp hc with hc | hc
      · subst hc
        decide
      · exact hw c hc
    · apply ih _ (Nat.div_lt_self (by omega) (by omega))
      intro c hc
      rcases List.mem_append.mp hc with hc | hc
      · rcases List.mem_cons.mp hc with hc | hc
        · subst hc
          exact hanzi_getD_not_digit _
        · exact cn_units_nodigit _ c hc
      · exact hw c hc

theorem trimEndZeros_subset (l : List Char) (c : Char)
    (hc : c ∈ trimEndZeros l) : c ∈ l := by
  unfold trimEndZeros at hc
  rw [List.mem_reverse] at hc
  have := (List.dropWhile_sublist (fun x => x = '零')).subset hc
  rwa [List.mem_reverse] at this

theorem convertSection_nodigit (s : Nat) : NoDigit (convertSection s) := by
  intro c hc
  have := trimEndZeros_subset _ _ hc
  exact convertSectionGo_nodigit s 0 true [] (by intro x hx; simp at hx) c this

theorem convGo_nodigit (value : Nat) :
    ∀ (i : Nat) (nz : Bool) (r : List Char), NoDigit r →
      NoDigit (convGo value i nz r) := by
  induction value using Nat.strong_induction_on with
  | _ value ih =>
    intro i nz r hr
    rw [convGo]
    dsimp only
    split_ifs with h0 hs hz hne
    · exact hr
    · apply ih _ (Nat.div_lt_self (by omega) (by omega))
      intro c hc
      rcases List.mem_append.mp hc with hc | hc
      · rcases List.mem_append.mp hc with hc | hc
        · exact convertSection_nodigit _ c hc
        · exact cn_section_units_nodigit _ c hc
      · rcases List.mem_cons.mp hc with hc | hc
        · subst hc
          decide
        · exact hr c hc
    · apply ih _ (Nat.div_lt_self (by omega) (by omega))
      intro c hc
      rcases List.mem_append.mp hc with hc | hc
      · rcases List.mem_append.mp hc with hc | hc
        · exact convertSection_nodigit _ c hc
        · exact cn_section_units_nodigit _ c hc
      · exact hr c hc
    · exact ih _ (Nat.div_lt_self (by omega) (by omega)) _ _ _ hr
    · exact ih _ (Nat.div_lt_self (by omega) (by omega)) _ _ _ hr

theorem convertInteger_nodigit (n : Nat) : NoDigit (convertInteger n) := by
  unfold convertInteger
  dsimp only
  split_ifs with h0 h1
  · intro c hc
    rcases List.mem_cons.mp hc with hc | hc
    · subst hc
      decide
    · simp at hc
  · intro c hc
    have hmem := (List.drop_subset 1 _) hc
    exact convGo_nodigit n 0 false [] (by intro x hx; simp at hx) c hmem
  · exact convGo_nodigit n 0 false [] (by intro x hx; simp at hx)

theorem digitToHanzi_nodigit (c : Char) (hc : c.isDigit = true) :
    (digitToHanzi c).isDigit = false := by
  unfold digitToHanzi
  rw [if_pos hc]
  simp only [Char.isDigit, Bool.and_eq_true, decide_eq_true_eq] at hc
  have h1 : 48 ≤ c.toNat := hc.1
  have h2 : c.toNat ≤ 57 := hc.2
  have h : c.toNat - 48 < 10 := by omega
  generalize hg : c.toNat - 48 = n at h ⊢
  interval_cases n <;> rfl

/-- When `i128` parsing succeeds the converted match contains no ASCII
digit. -/
theorem an2cn_nodigit (run : List Char) (fr : Option (List Char)) (n : Nat)
    (hp : parseI128 run = some n)
    (hfr : ∀ f, fr = some f → ∀ c ∈ f, c.isDigit = true) :
    NoDigit (an2cn run fr) := by
  unfold an2cn
  split_ifs with h0
  · intro c hc
    rcases List.mem_cons.mp hc with hc | hc
    · subst hc
      decide
    · simp at hc
  · rw [hp]
    cases fr with
    | none => exact convertInteger_nodigit n
    | some f =>
      dsimp only
      split_ifs with hf
      · intro c hc
        rcases List.mem_append.mp hc with hc | hc
        · exact convertInteger_nodigit n c hc
        · rcases List.mem_cons.mp hc with hc | hc
          · subst hc
            decide
          · obtain ⟨x, hx, hxc⟩ := List.mem_map.mp hc
            rw [← hxc]
            exact digitToHanzi_nodigit x (hfr f rfl x hx)
      · exact convertInteger_nodigit n

theorem parse_zero : parseI128 ['0'] = some 0 := by decide

theorem an2cn_none_of_fail (run : List Char) (hp : parseI128 run = none) :
    an2cn run none = run := by
  unfold an2cn
  rw [if_neg (by
    rintro ⟨h0, -⟩
    rw [h0, parse_zero] at hp
    cases hp)]
  rw [hp]

theorem an2cn_some_frac_of_fail (run f : List Char)
    (hp : parseI128 run = none) (hf : f ≠ []) :
    an2cn run (some f) = run ++ '点' :: f.map digitToHanzi := by
  unfold an2cn
  rw [if_neg (by rintro ⟨-, h⟩; cases h)]
  rw [hp]
  dsimp only
  rw [if_pos hf]

theorem head_dropWhile_nondigit (l : List Char) :
    ∀ c, (l.dropWhile Char.isDigit).head? = some c → c.isDigit = false := by
  induction l with
  | nil => intro c h; cases h
  | cons a r ih =>
    intro c h
    rw [List.dropWhile_cons] at h
    split_ifs at h with hp
    · exact ih c h
    · rw [List.head?_cons] at h
      injection h with h
      subst h
      simpa using hp

theorem head_cons_nondigit (c : Char) (hc : c.isDigit = false)
    (l : List Char) :
    ∀ x, (c :: l).head? = some x → x.isDigit = false := by
  intro x hx
  rw [List.head?_cons] at hx
  injection hx with hx
  subst hx
  exact hc

theorem takeWhile_nil_of_head_nondigit (l : List Char)
    (h : ∀ c, l.head? = some c → c.isDigit = false) :
    l.takeWhile Char.isDigit = [] := by
  cases l with
  | nil => rfl
  | cons a r =>
    rw [List.takeWhile_cons]
    simp [h a rfl]

theorem head_nondigit_of_takeWhile_nil (l : List Char)
    (h : l.takeWhile Char.isDigit = []) :
    ∀ c, l.head? = some c → c.isDigit = false := by
  intro c hc
  cases l with
  | nil => cases hc
  | cons a r =>
    rw [List.head?_cons] at hc
    injection hc with hc
    subst hc
    rw [List.takeWhile_cons] at h
    by_cases hd : a.isDigit = true
    · rw [if_pos hd] at h
      cases h
    · simpa using hd

theorem takeWhile_digit_append (run t : List Char)
    (hrun : ∀ c ∈ run, c.isDigit = true)
    (ht : ∀ c, t.head? = some c → c.isDigit = false) :
    (run ++ t).takeWhile Char.isDigit = run ∧
      (run ++ t).dropWhile Char.isDigit = t := by
  induction run with
  | nil =>
    simp only [List.nil_append]
    refine ⟨takeWhile_nil_of_head_nondigit t ht, ?_⟩
    cases t with
    | nil => rfl
    | cons a r =>
      rw [List.dropWhile_cons, if_neg (by simp [ht a rfl])]
  | cons a run ih =>
    have ha : a.isDigit = true := hrun a (by simp)
    obtain ⟨ih1, ih2⟩ := ih (fun c hc => hrun c (by simp [hc]))
    constructor
    · rw [List.cons_append, List.takeWhile_cons, if_pos ha, ih1]
    · rw [List.cons_append, List.dropWhile_cons, if_pos ha, ih2]

theorem rn_head (l : List Char)
    (hl : ∀ c, l.head? = some c → c.isDigit = false) :
    (replaceNumbers l).head? = l.head? := by
  cases l with
  | nil => rw [replaceNumbers_nil]
  | cons c r =>
    rw [replaceNumbers_cons_nondigit c r (hl c rfl)]
    rfl

/-- One full step of `replace_numbers` on a maximal digit run followed by
the rest of the text. -/
theorem rn_run (run t : List Char) (hne : run ≠ [])
    (hrun : ∀ c ∈ run, c.isDigit = true)
    (ht : ∀ c, t.head? = some c → c.isDigit = false) :
    replaceNumbers (run ++ t) =
      if t.head? = some '.' then
        if t.tail.takeWhile Char.isDigit ≠ [] then
          an2cn run (some (t.tail.takeWhile Char.isDigit)) ++
            replaceNumbers (t.tail.dropWhile Char.isDigit)
        else an2cn run none ++ replaceNumbers t
      else an2cn run none ++ replaceNumbers t := by
  obtain ⟨c, run', rfl⟩ : ∃ c run', run = c :: run' := by
    cases run with
    | nil => cases hne rfl
    | cons c r => exact ⟨c, r, rfl⟩
  rw [List.cons_append, replaceNumbers]
  dsimp only
  rw [if_pos (hrun c (by simp))]
  obtain ⟨h1, h2⟩ := takeWhile_digit_append (c :: run') t hrun ht
  rw [← List.cons_append, h1, h2]

/-- Inductive step for idempotence: a maximal digit run `T` followed by a
remainder `D` whose head is not a digit. -/
theorem rn_idem_step (n : Nat)
    (ih : ∀ l : List Char, l.length ≤ n →
      replaceNumbers (replaceNumbers l) = replaceNumbers l)
    (T D : List Char) (hne : T ≠ [])
    (hT : ∀ x ∈ T, x.isDigit = true)
    (hD : ∀ x, D.head? = some x → x.isDigit = false)
    (hlen : D.length ≤ n) :
    replaceNumbers (replaceNumbers (T ++ D)) = replaceNumbers (T ++ D) := by
  rw [rn_run T D hne hT hD]
  split_ifs with hdot hfrac
  · have hF : ∀ x ∈ D.tail.takeWhile Char.isDigit, x.isDigit = true :=
      fun x hx => List.mem_takeWhile_imp hx
    have hRlen : (D.tail.dropWhile Char.isDigit).length ≤ n := by
      have h1 : (D.tail.dropWhile Char.isDigit).length ≤ D.tail.length :=
        (List.dropWhile_sublist Char.isDigit).length_le
      have h2 : D.tail.length = D.length - 1 := List.length_tail D
      omega
    cases hp : parseI128 T with
    | some m =>
      rw [replaceNumbers_append_nondigit _ _
        (an2cn_nodigit T (some (D.tail.takeWhile Char.isDigit)) m hp
          (by intro f hf x hx
              injection hf with hf
              subst hf
              exact hF x hx))]
      rw [ih _ hRlen]
    | none =>
      rw [an2cn_some_frac_of_fail T _ hp hfrac]
      rw [List.append_assoc, List.cons_append]
      rw [rn_run T ('点' :: ((D.tail.takeWhile Char.isDigit).map digitToHanzi
          ++ replaceNumbers (D.tail.dropWhile Char.isDigit))) hne hT
          (head_cons_nondigit '点' (by decide) _)]
      rw [if_neg (by simp)]
      rw [an2cn_none_of_fail T hp]
      rw [replaceNumbers_cons_nondigit _ _ (by decide)]
      rw [replaceNumbers_append_nondigit _ _
        (by intro x hx
            obtain ⟨y, hy, hyx⟩ := List.mem_map.mp hx
            rw [← hyx]
            exact digitToHanzi_nodigit y (hF y hy))]
      rw [ih _ hRlen]
  · have hfrac' : D.tail.takeWhile Char.isDigit = [] := not_not.mp hfrac
    obtain ⟨D', rfl⟩ : ∃ D', D = '.' :: D' := by
      cases D with
      | nil => cases hdot
      | cons d D' =>
        rw [List.head?_cons] at hdot
        injection hdot with hdot
        subst hdot
        exact ⟨D', rfl⟩
    simp only [List.tail_cons] at hfrac'
    have hD' : ∀ x, D'.head? = some x → x.isDigit = false :=
      head_nondigit_of_takeWhile_nil D' hfrac'
    have hD'len : D'.length ≤ n := by
      simp only [List.length_cons] at hlen
      omega
    cases hp : parseI128 T with
    | some m =>
      rw [replaceNumbers_append_nondigit _ _
        (an2cn_nodigit T none m hp (by intro f hf; cases hf))]
      rw [ih _ hlen]
    | none =>
      rw [an2cn_none_of_fail T hp]
      rw [replaceNumbers_cons_nondigit '.' D' (by decide)]
      rw [rn_run T ('.' :: replaceNumbers D') hne hT
          (head_cons_nondigit '.' (by decide) _)]
      rw [if_pos (by rw [List.head?_cons])]
      have htw : (replaceNumbers D').takeWhile Char.isDigit = [] := by
        apply takeWhile_nil_of_head_nondigit
        intro x hx
        rw [rn_head D' hD'] at hx
        exact hD' x hx
      rw [if_neg (by simp only [List.tail_cons, htw]; simp)]
      rw [an2cn_none_of_fail T hp]
      rw [replaceNumbers_cons_nondigit '.' _ (by decide)]
      rw [ih D' hD'len]
  · cases hp : parseI128 T with
    | some m =>
      rw [replaceNumbers_append_nondigit _ _
        (an2cn_nodigit T none m hp (by intro f hf; cases hf))]
      rw [ih _ hlen]
    | none =>
      rw [an2cn_none_of_fail T hp]
      have hh : ∀ x, (replaceNumbers D).head? = some x → x.isDigit = false := by
        intro x hx
        rw [rn_head D hD] at hx
        exact hD x hx
      rw [rn_run T (replaceNumbers D) hne hT hh]
      rw [if_neg (by rw [rn_head D hD]; exact hdot)]
      rw [an2cn_none_of_fail T hp, ih D hlen]

theorem rn_idem_fuel : ∀ (n : Nat) (l : List Char), l.length ≤ n →
    replaceNumbers (replaceNumbers l) = replaceNumbers l := by
  intro n
  induction n with
  | zero =>
    intro l hl
    have h0 : l = [] := List.eq_nil_of_length_eq_zero (by omega)
    subst h0
    rw [replaceNumbers_nil, replaceNumbers_nil]
  | succ n ih =>
    intro l hl
    cases l with
    | nil => rw [replaceNumbers_nil, replaceNumbers_nil]
    | cons c rest =>
      by_cases hc : c.isDigit = true
      · have hsplit : (c :: rest).takeWhile Char.isDigit ++
            (c :: rest).dropWhile Char.isDigit = c :: rest :=
          List.takeWhile_append_dropWhile Char.isDigit (c :: rest)
        have hne : (c :: rest).takeWhile Char.isDigit ≠ [] := by
          rw [List.takeWhile_cons, if_pos hc]
          simp
        have hlen : ((c :: rest).dropWhile Char.isDigit).length ≤ n := by
          have h1 : ((c :: rest).takeWhile Char.isDigit).length +
              ((c :: rest).dropWhile Char.isDigit).length = rest.length + 1 := by
            rw [← List.length_append, hsplit, List.length_cons]
          have h2 : ((c :: rest).takeWhile Char.isDigit).length ≠ 0 := by
            intro h
            exact hne (List.eq_nil_of_length_eq_zero h)
          simp only [List.length_cons] at hl
          omega
        conv_lhs => rw [← hsplit]
        conv_rhs => rw [← hsplit]
        exact rn_idem_step n ih _ _ hne
          (fun x hx => List.mem_takeWhile_imp hx)
          (head_dropWhile_nondigit _) hlen
      · have hcf : c.isDigit = false := by simpa using hc
        rw [replaceNumbers_cons_nondigit c rest hcf,
            replaceNumbers_cons_nondigit c _ hcf,
            ih rest (by simp only [List.length_cons] at hl; omega)]

/-- **C7 (amended).** The numeral-conversion pass `replace_numbers` is
idempotent: running it a second time over its own output changes nothing.
A digit run that converts becomes pure hanzi (no ASCII digit survives, so
the second pass copies it verbatim); a run that overflows `i128` is passed
through unchanged and fails identically on the second pass.  (The full
`normalize_text` pipeline is NOT idempotent; see the counterexample.) -/
theorem c7_replace_numbers_idempotent (l : List Char) :
    replaceNumbers (replaceNumbers l) = replaceNumbers l :=
  rn_idem_fuel l.length l le_rfl
